import Mathlib

/-!
Shallow embedding of the `algorithm_Rust` repository: an undirected weighted
graph (`Graph` with `add_node` / `add_edge`) together with two shortest-path
algorithms, `bellman_ford` (src/bellman_ford.rs) and `kkomatsu_dijkstra`
(src/dijkstra.rs).  Rust `HashMap<i32, _>` is modelled as an association list
`List (Int × _)` whose key iteration order is the insertion order; `i32` is
modelled as `Int` with explicit range conditions: `checked_add` returns `none`
outside `[-2^31, 2^31)`, and the plain `+` of the Dijkstra loop wraps modulo
`2^32` as unchecked Rust release arithmetic does.  The Dijkstra `while` loop is
modelled with an explicit fuel that is proved sufficient (termination claim).
-/

namespace PathFind

set_option maxRecDepth 400000 in
/-- `i32::MAX`, the infinity sentinel of both algorithms. -/
def intMax : Int := 2147483647

/-- Lower end of the `i32` range. -/
def intMin : Int := -2147483648

/-- The node type of both Rust modules: an identifier and an unused coordinate payload. -/
structure Node where
  id : Int
  x : Int
  y : Int
deriving DecidableEq

/-- The edge type of both Rust modules. -/
structure Edge where
  node_a_id : Int
  node_b_id : Int
  weight : Int
deriving DecidableEq

/-- The graph representation shared (in duplicated form) by both Rust modules:
`nodes : HashMap<i32, Node>` and `edges : HashMap<i32, Vec<Edge>>`. -/
structure Graph where
  nodes : List (Int × Node)
  edges : List (Int × List Edge)
deriving DecidableEq

/-- `HashMap::get`: first entry with the given key. -/
def alookup {α : Type} : List (Int × α) → Int → Option α
  | [], _ => none
  | kv :: rest, key => if kv.1 = key then some kv.2 else alookup rest key

/-- `HashMap::insert`: replace the value of an existing key, else append the entry. -/
def ainsert {α : Type} : List (Int × α) → Int → α → List (Int × α)
  | [], key, v => [(key, v)]
  | kv :: rest, key, v =>
    if kv.1 = key then (kv.1, v) :: rest else kv :: ainsert rest key v

/-- `edges.entry(key).or_default().push(e)`: append `e` to the vector stored at
`key`, creating an empty vector first when the key is absent. -/
def pushEntry : List (Int × List Edge) → Int → Edge → List (Int × List Edge)
  | [], key, e => [(key, [e])]
  | kl :: rest, key, e =>
    if kl.1 = key then (kl.1, kl.2 ++ [e]) :: rest else kl :: pushEntry rest key e

/-- The adjacency list stored under `v` (empty when the key is absent; both
algorithms skip absent keys, which processes the same edges as an empty list). -/
def adj (g : Graph) (v : Int) : List Edge := (alookup g.edges v).getD []

/-- `Graph::new()`. -/
def Graph.new : Graph := ⟨[], []⟩

/-- `Graph::add_node`. -/
def add_node (g : Graph) (node : Node) : Graph :=
  { g with nodes := ainsert g.nodes node.id node }

/-- `Graph::add_edge`: store the edge under its `node_a_id` and the synthesized
reverse edge under its `node_b_id`. -/
def add_edge (g : Graph) (edge : Edge) : Graph :=
  let g1 : Graph := { g with edges := pushEntry g.edges edge.node_a_id edge }
  let reverse_edge : Edge := ⟨edge.node_b_id, edge.node_a_id, edge.weight⟩
  { g1 with edges := pushEntry g1.edges reverse_edge.node_a_id reverse_edge }

/-- `i32::checked_add`. -/
def checked_add (a b : Int) : Option Int :=
  if -2147483648 ≤ a + b ∧ a + b < 2147483648 then some (a + b) else none

/-- Wrapping `i32` addition result (Rust release-mode `+`). -/
def wrap32 (n : Int) : Int := (n + 2147483648) % 4294967296 - 2147483648

/-- The candidate distance of one Bellman-Ford relaxation:
`distances.get(node_id).and_then(|d| d.checked_add(edge.weight)).unwrap_or(i32::MAX)`. -/
def bfCandidate (du : Option Int) (w : Int) : Int :=
  (du.bind (fun d => checked_add d w)).getD intMax

/-- One Bellman-Ford relaxation of a single edge stored under `key`. -/
def relaxOne (key : Int) (dists : List (Int × Int)) (e : Edge) : List (Int × Int) :=
  let newDistance := bfCandidate (alookup dists key) e.weight
  let currentDistance := (alookup dists e.node_b_id).getD intMax
  if newDistance < currentDistance then ainsert dists e.node_b_id newDistance else dists

/-- Relaxation of the whole adjacency list stored under `key`. -/
def relaxKey (g : Graph) (dists : List (Int × Int)) (key : Int) : List (Int × Int) :=
  (adj g key).foldl (relaxOne key) dists

/-- One outer round: `for node_id in self.nodes.keys() { ... }`. -/
def bfRound (g : Graph) (dists : List (Int × Int)) : List (Int × Int) :=
  (g.nodes.map Prod.fst).foldl (relaxKey g) dists

/-- `for _ in 0..self.nodes.len()`: iterate `bfRound`. -/
def bfIter (g : Graph) : Nat → List (Int × Int) → List (Int × Int)
  | 0, dists => dists
  | n + 1, dists => bfIter g n (bfRound g dists)

/-- `Graph::bellman_ford`. -/
def bellman_ford (g : Graph) (from_node_id to_node_id : Int) : Int :=
  (alookup (bfIter g g.nodes.length [(from_node_id, 0)]) to_node_id).getD intMax

/-- The heap entry type of src/dijkstra.rs. -/
structure State where
  cost : Int
  position : Int
deriving DecidableEq

/-- `BinaryHeap::pop` under the reversed ordering on `cost`: remove an entry of
minimal cost (ties resolved in favour of the earliest entry of the model list;
the Rust heap leaves the tie order unspecified). -/
def popMin : List State → Option (State × List State)
  | [] => none
  | s :: rest =>
    match popMin rest with
    | none => some (s, [])
    | some (m, rest') => if s.cost ≤ m.cost then some (s, rest) else some (m, s :: rest')

/-- Processing of one edge inside the Dijkstra loop: wrapping addition,
comparison against the recorded distance, conditional push and insert. -/
def dRelax (cost : Int) (acc : List (Int × Int) × List State) (e : Edge) :
    List (Int × Int) × List State :=
  let next_cost := wrap32 (cost + e.weight)
  let next_position := e.node_b_id
  if next_cost < (alookup acc.1 next_position).getD intMax then
    (ainsert acc.1 next_position next_cost, ⟨next_cost, next_position⟩ :: acc.2)
  else acc

/-- Processing of the whole adjacency list of the popped position. -/
def dProcess (g : Graph) (cost position : Int) (dists : List (Int × Int))
    (heap : List State) : List (Int × Int) × List State :=
  (adj g position).foldl (dRelax cost) (dists, heap)

/-- The Dijkstra `while let Some(State { cost, position }) = heap.pop()` loop,
with explicit fuel; `none` means the fuel ran out (proved impossible for the
fuel used by `kkomatsu_dijkstra`). -/
def dLoop (g : Graph) : Nat → List State → List (Int × Int) → Option (List (Int × Int))
  | 0, _, _ => none
  | n + 1, heap, dists =>
    match popMin heap with
    | none => some dists
    | some (s, heap') =>
      match alookup dists s.position with
      | some cur =>
        if s.cost > cur then dLoop g n heap' dists
        else dLoop g n (dProcess g s.cost s.position dists heap').2
          (dProcess g s.cost s.position dists heap').1
      | none =>
        dLoop g n (dProcess g s.cost s.position dists heap').2
          (dProcess g s.cost s.position dists heap').1

/-- Every position the Dijkstra loop can ever reach: the start node and all
edge targets. -/
def potKeys (g : Graph) (s : Int) : List Int :=
  (s :: g.edges.foldr (fun kl acc => kl.2.map Edge.node_b_id ++ acc) []).dedup

/-- Potential of one key: its recorded distance (default `i32::MAX`), shifted
into `Nat`.  Strictly decreases whenever the recorded distance decreases. -/
def pot (dists : List (Int × Int)) (v : Int) : Nat :=
  ((alookup dists v).getD intMax + 2147483648).toNat

/-- Termination potential of a loop configuration. -/
def phi (g : Graph) (s : Int) (heap : List State) (dists : List (Int × Int)) : Nat :=
  heap.length + ((potKeys g s).map (pot dists)).sum

/-- Fuel that suffices for the whole loop (proved in the termination theorem). -/
def dijkstraFuel (g : Graph) (s : Int) : Nat := phi g s [⟨0, s⟩] [(s, 0)] + 1

/-- The distance map left behind by the Dijkstra loop, run from its initial
configuration (`distances = {s: 0}`, `heap = [(0, s)]`). -/
def dFinalMap (g : Graph) (s : Int) : Option (List (Int × Int)) :=
  dLoop g (dijkstraFuel g s) [⟨0, s⟩] [(s, 0)]

/-- `Graph::kkomatsu_dijkstra`. -/
def kkomatsu_dijkstra (g : Graph) (from_node_id to_node_id : Int) : Int :=
  if (alookup g.nodes from_node_id).isNone ∨ (alookup g.nodes to_node_id).isNone then
    intMax
  else
    match dFinalMap g from_node_id with
    | some dists => (alookup dists to_node_id).getD intMax
    | none => intMax

/-- Build operations, for claims about graphs constructed through the public API. -/
inductive Op where
  | addNode (n : Node)
  | addEdge (e : Edge)

/-- Apply one build operation. -/
def applyOp (g : Graph) : Op → Graph
  | .addNode n => add_node g n
  | .addEdge e => add_edge g e

/-- A graph built from the empty graph by a sequence of `add_node` / `add_edge`. -/
def buildGraph (ops : List Op) : Graph := ops.foldl applyOp Graph.new

/-- `v` is a registered point: `nodes.contains_key(&v)`. -/
def Registered (g : Graph) (v : Int) : Prop := (alookup g.nodes v).isSome

/-- Adjacency chains: `IsPathW g reg v p d` states that the edge list `p` leads
from `v` to `d`, each step taken from the adjacency list stored under the
current vertex; with `reg = true` every step vertex must also be registered,
matching the keys the Bellman-Ford outer loop iterates over. -/
def IsPathW (g : Graph) (reg : Bool) : Int → List Edge → Int → Prop
  | v, [], d => d = v
  | v, e :: p, d => (reg = true → Registered g v) ∧ e ∈ adj g v ∧ IsPathW g reg e.node_b_id p d

/-- Total weight of an edge list (exact integer arithmetic). -/
def pathWeight (p : List Edge) : Int := (p.map Edge.weight).sum

/-- The vertex sequence of a chain starting at `v`. -/
def verts (v : Int) (p : List Edge) : List Int := v :: p.map Edge.node_b_id

/-- All stored weights are nonnegative. -/
def NonnegW (g : Graph) : Prop := ∀ kl ∈ g.edges, ∀ e ∈ kl.2, 0 ≤ e.weight

/-- Total stored weight (each undirected connection counts twice, once per direction). -/
def edgeTotal (g : Graph) : Int :=
  (g.edges.map (fun kl => (kl.2.map Edge.weight).sum)).sum

/-- The total stored weight is small enough that no distance computation of
either algorithm can overflow `i32` or collide with the infinity sentinel. -/
def SmallW (g : Graph) : Prop := 2 * edgeTotal g < intMax

/-- Referential integrity: every adjacency key and every edge target is a
registered point. -/
def RefInt (g : Graph) : Prop :=
  ∀ kl ∈ g.edges, Registered g kl.1 ∧ ∀ e ∈ kl.2, Registered g e.node_b_id

/-- Every stored edge entry is keyed by its own `node_a_id` and has its reverse
stored under its `node_b_id`. -/
def SymmAdj (g : Graph) : Prop :=
  ∀ kl ∈ g.edges, ∀ e ∈ kl.2,
    e.node_a_id = kl.1 ∧ (⟨e.node_b_id, e.node_a_id, e.weight⟩ : Edge) ∈ adj g e.node_b_id

instance (g : Graph) (v : Int) : Decidable (Registered g v) := by
  unfold Registered
  infer_instance

instance (g : Graph) : Decidable (NonnegW g) := by
  unfold NonnegW
  infer_instance

instance (g : Graph) : Decidable (SmallW g) := by
  unfold SmallW
  infer_instance

instance (g : Graph) : Decidable (RefInt g) := by
  unfold RefInt
  infer_instance

instance (g : Graph) : Decidable (SymmAdj g) := by
  unfold SymmAdj
  infer_instance

/-- End vertex of a chain starting at `v`. -/
def endV (v : Int) : List Edge → Int
  | [] => v
  | e :: p => endV e.node_b_id p

/-- Source vertices of the successive edges of a chain starting at `v`. -/
def srcs (v : Int) : List Edge → List Int
  | [] => []
  | e :: p => v :: srcs e.node_b_id p

/-- Total weight of the adjacency list stored under `v`. -/
def adjWeight (g : Graph) (v : Int) : Int := ((adj g v).map Edge.weight).sum

/-- Removal of the first entry with the given key (proof device for summing
adjacency weights over distinct keys). -/
def eraseKey : List (Int × List Edge) → Int → List (Int × List Edge)
  | [], _ => []
  | kl :: rest, k => if kl.1 = k then rest else kl :: eraseKey rest k

section MapLemmas

theorem alookup_cons {α : Type} (kv : Int × α) (m : List (Int × α)) (k : Int) :
    alookup (kv :: m) k = if kv.1 = k then some kv.2 else alookup m k := rfl

theorem alookup_ainsert_self {α : Type} (m : List (Int × α)) (k : Int) (v : α) :
    alookup (ainsert m k v) k = some v := by
  induction m with
  | nil => simp [ainsert, alookup]
  | cons kv rest ih =>
    by_cases h : kv.1 = k
    · simp [ainsert, alookup, h]
    · simp [ainsert, alookup, h, ih]

theorem alookup_ainsert_ne {α : Type} (m : List (Int × α)) (k k' : Int) (v : α)
    (h : k ≠ k') : alookup (ainsert m k v) k' = alookup m k' := by
  induction m with
  | nil => simp [ainsert, alookup, h]
  | cons kv rest ih =>
    by_cases hk : kv.1 = k
    · simp [ainsert, alookup, hk, h]
    · simp only [ainsert, hk, if_false, alookup_cons, ih]

theorem alookup_ainsert {α : Type} (m : List (Int × α)) (k k' : Int) (v : α) :
    alookup (ainsert m k v) k' = if k = k' then some v else alookup m k' := by
  by_cases h : k = k'
  · subst h; simp [alookup_ainsert_self]
  · simp [h, alookup_ainsert_ne m k k' v h]

theorem alookup_mem {α : Type} {m : List (Int × α)} {k : Int} {v : α}
    (h : alookup m k = some v) : (k, v) ∈ m := by
  induction m with
  | nil => simp [alookup] at h
  | cons kv rest ih =>
    rw [alookup_cons] at h
    by_cases hk : kv.1 = k
    · simp only [hk, if_true, Option.some.injEq] at h
      have hkv : kv = (k, v) := by
        cases kv; simp_all
      rw [hkv]
      exact List.mem_cons_self _ _
    · simp only [hk, if_false] at h
      exact List.mem_cons_of_mem _ (ih h)

theorem alookup_isSome_iff_mem_keys {α : Type} (m : List (Int × α)) (k : Int) :
    (alookup m k).isSome ↔ k ∈ m.map Prod.fst := by
  induction m with
  | nil => simp [alookup]
  | cons kv rest ih =>
    rw [alookup_cons]
    by_cases hk : kv.1 = k
    · simp [hk]
    · simp [hk, ih, Ne.symm hk]

theorem alookup_pushEntry (m : List (Int × List Edge)) (k k' : Int) (e : Edge) :
    alookup (pushEntry m k e) k' =
      if k = k' then some ((alookup m k).getD [] ++ [e]) else alookup m k' := by
  induction m with
  | nil =>
    by_cases h : k = k' <;> simp [pushEntry, alookup, h]
  | cons kl rest ih =>
    by_cases hk : kl.1 = k
    · have hpe : pushEntry (kl :: rest) k e = (kl.1, kl.2 ++ [e]) :: rest := by
        simp [pushEntry, hk]
      rw [hpe]
      by_cases h : k = k'
      · subst h
        simp [alookup_cons, hk]
      · rw [alookup_cons]
        simp only [hk, h, if_false]
        rw [alookup_cons, hk, if_neg h]
    · have hpe : pushEntry (kl :: rest) k e = kl :: pushEntry rest k e := by
        simp [pushEntry, hk]
      rw [hpe]
      by_cases h : k = k'
      · subst h
        rw [alookup_cons, alookup_cons, ih]
        simp [hk]
      · rw [alookup_cons, ih]
        simp only [h, if_false]
        rw [alookup_cons]

theorem alookup_eraseKey_ne (m : List (Int × List Edge)) (k k' : Int) (h : k' ≠ k) :
    alookup (eraseKey m k) k' = alookup m k' := by
  induction m with
  | nil => simp [eraseKey]
  | cons kl rest ih =>
    by_cases hk : kl.1 = k
    · simp only [eraseKey, hk, if_true, alookup_cons]
      rw [if_neg (fun hc => h hc.symm)]
    · simp only [eraseKey, hk, if_false, alookup_cons, ih]

theorem eraseKey_sublist (m : List (Int × List Edge)) (k : Int) :
    (eraseKey m k).Sublist m := by
  induction m with
  | nil => simp [eraseKey]
  | cons kl rest ih =>
    by_cases hk : kl.1 = k
    · simp only [eraseKey, hk, if_true]
      exact List.sublist_cons_self kl rest
    · simp only [eraseKey, hk, if_false]
      exact List.Sublist.cons₂ kl ih

theorem map_sum_eraseKey (m : List (Int × List Edge)) (k : Int) (l : List Edge)
    (f : Int × List Edge → Int) (h : alookup m k = some l) :
    (m.map f).sum = f (k, l) + ((eraseKey m k).map f).sum := by
  induction m with
  | nil => simp [alookup] at h
  | cons kl rest ih =>
    rw [alookup_cons] at h
    by_cases hk : kl.1 = k
    · simp only [hk, if_true, Option.some.injEq] at h
      have : kl = (k, l) := by
        cases kl; simp_all
      subst this
      simp [eraseKey]
    · simp only [hk, if_false] at h
      simp only [eraseKey, hk, if_false, List.map_cons, List.sum_cons, ih h]
      ring

end MapLemmas

section PathLemmas

theorem isPathW_nil {g : Graph} {reg : Bool} {v d : Int} :
    IsPathW g reg v [] d ↔ d = v := Iff.rfl

theorem isPathW_cons {g : Graph} {reg : Bool} {v d : Int} {e : Edge} {p : List Edge} :
    IsPathW g reg v (e :: p) d ↔
      (reg = true → Registered g v) ∧ e ∈ adj g v ∧ IsPathW g reg e.node_b_id p d := Iff.rfl

theorem isPathW_append {g : Graph} {reg : Bool} {p q : List Edge} :
    ∀ {v d : Int}, IsPathW g reg v (p ++ q) d ↔
      ∃ m, IsPathW g reg v p m ∧ IsPathW g reg m q d := by
  induction p with
  | nil =>
    intro v d
    constructor
    · intro h
      exact ⟨v, rfl, h⟩
    · rintro ⟨m, hm, hq⟩
      rw [isPathW_nil] at hm
      subst hm
      exact hq
  | cons e p ih =>
    intro v d
    rw [List.cons_append, isPathW_cons, ih]
    constructor
    · rintro ⟨hr, he, m, hp, hq⟩
      exact ⟨m, ⟨hr, he, hp⟩, hq⟩
    · rintro ⟨m, ⟨hr, he, hp⟩, hq⟩
      exact ⟨hr, he, m, hp, hq⟩

theorem isPathW_false_of_true {g : Graph} {p : List Edge} :
    ∀ {v d : Int}, IsPathW g true v p d → IsPathW g false v p d := by
  induction p with
  | nil => intro v d h; exact h
  | cons e p ih =>
    intro v d h
    obtain ⟨_, he, hp⟩ := h
    exact ⟨by simp, he, ih hp⟩

theorem endV_nil (v : Int) : endV v [] = v := rfl

theorem endV_cons (v : Int) (e : Edge) (p : List Edge) :
    endV v (e :: p) = endV e.node_b_id p := rfl

theorem endV_concat (p : List Edge) : ∀ (v : Int) (e : Edge),
    endV v (p ++ [e]) = e.node_b_id := by
  induction p with
  | nil => intro v e; rfl
  | cons f q ih =>
    intro v e
    rw [List.cons_append, endV_cons, ih]

theorem isPathW_endV {g : Graph} {reg : Bool} {p : List Edge} :
    ∀ {v d : Int}, IsPathW g reg v p d → d = endV v p := by
  induction p with
  | nil => intro v d h; exact h
  | cons e p ih =>
    intro v d h
    rw [endV_cons]
    exact ih h.2.2

theorem pathWeight_nil : pathWeight [] = 0 := rfl

theorem pathWeight_cons (e : Edge) (p : List Edge) :
    pathWeight (e :: p) = e.weight + pathWeight p := by
  simp [pathWeight]

theorem pathWeight_append (p q : List Edge) :
    pathWeight (p ++ q) = pathWeight p + pathWeight q := by
  simp [pathWeight]

theorem verts_concat (v : Int) (p : List Edge) (e : Edge) :
    verts v (p ++ [e]) = verts v p ++ [e.node_b_id] := by
  simp [verts]

theorem verts_cons (v : Int) (e : Edge) (p : List Edge) :
    verts v (e :: p) = v :: verts e.node_b_id p := by
  simp [verts]

theorem isPathW_mem_verts {g : Graph} {reg : Bool} {p : List Edge} :
    ∀ {v d : Int}, IsPathW g reg v p d → d ∈ verts v p := by
  induction p with
  | nil =>
    intro v d h
    rw [isPathW_nil] at h
    simp [verts, h]
  | cons e p ih =>
    intro v d h
    rw [verts_cons]
    exact List.mem_cons_of_mem _ (ih h.2.2)

theorem srcs_sublist_verts (p : List Edge) : ∀ v : Int, (srcs v p).Sublist (verts v p) := by
  induction p with
  | nil =>
    intro v
    simp [srcs, verts]
  | cons e p ih =>
    intro v
    have : verts v (e :: p) = v :: verts e.node_b_id p := by
      simp [verts]
    rw [this]
    exact List.Sublist.cons₂ v (ih e.node_b_id)

theorem adj_mem_entry {g : Graph} {v : Int} {e : Edge} (h : e ∈ adj g v) :
    ∃ l, (v, l) ∈ g.edges ∧ e ∈ l := by
  unfold adj at h
  cases hl : alookup g.edges v with
  | none => rw [hl] at h; simp at h
  | some l =>
    rw [hl] at h
    exact ⟨l, alookup_mem hl, h⟩

theorem adj_weight_nonneg {g : Graph} (hN : NonnegW g) {v : Int} {e : Edge}
    (h : e ∈ adj g v) : 0 ≤ e.weight := by
  obtain ⟨l, hm, he⟩ := adj_mem_entry h
  exact hN (v, l) hm e he

theorem path_weights_nonneg {g : Graph} (hN : NonnegW g) {reg : Bool} {p : List Edge} :
    ∀ {v d : Int}, IsPathW g reg v p d → ∀ e ∈ p, 0 ≤ e.weight := by
  induction p with
  | nil => intro v d _ e he; simp at he
  | cons f p ih =>
    intro v d h e he
    rcases List.mem_cons.mp he with h1 | h2
    · subst h1
      exact adj_weight_nonneg hN h.2.1
    · exact ih h.2.2 e h2

theorem pathWeight_nonneg {p : List Edge} (h : ∀ e ∈ p, 0 ≤ e.weight) :
    0 ≤ pathWeight p := by
  apply List.sum_nonneg
  intro x hx
  obtain ⟨e, he, hw⟩ := List.mem_map.mp hx
  exact hw ▸ h e he

theorem pathWeight_take_le {p : List Edge} (h : ∀ e ∈ p, 0 ≤ e.weight) (i : Nat) :
    pathWeight (p.take i) ≤ pathWeight p := by
  conv_rhs => rw [← List.take_append_drop i p]
  rw [pathWeight_append]
  have : 0 ≤ pathWeight (p.drop i) :=
    pathWeight_nonneg (fun e he => h e (List.mem_of_mem_drop he))
  linarith

theorem single_le_adjWeight {g : Graph} (hN : NonnegW g) {v : Int} {e : Edge}
    (h : e ∈ adj g v) : e.weight ≤ adjWeight g v := by
  apply List.single_le_sum
  · intro x hx
    obtain ⟨f, hf, hw⟩ := List.mem_map.mp hx
    exact hw ▸ adj_weight_nonneg hN hf
  · exact List.mem_map.mpr ⟨e, h, rfl⟩

theorem adjWeight_nonneg {g : Graph} (hN : NonnegW g) (v : Int) : 0 ≤ adjWeight g v := by
  apply List.sum_nonneg
  intro x hx
  obtain ⟨e, he, hw⟩ := List.mem_map.mp hx
  exact hw ▸ adj_weight_nonneg hN he

end PathLemmas

section BoundLemmas

theorem totalM_nonneg {m : List (Int × List Edge)}
    (h : ∀ kl ∈ m, ∀ e ∈ kl.2, 0 ≤ e.weight) :
    0 ≤ (m.map (fun kl => (kl.2.map Edge.weight).sum)).sum := by
  apply List.sum_nonneg
  intro x hx
  obtain ⟨kl, hkl, hs⟩ := List.mem_map.mp hx
  rw [← hs]
  apply List.sum_nonneg
  intro w hw
  obtain ⟨e, he, hwe⟩ := List.mem_map.mp hw
  exact hwe ▸ h kl hkl e he

theorem sum_adjWM_le (vs : List Int) :
    ∀ m : List (Int × List Edge), (∀ kl ∈ m, ∀ e ∈ kl.2, 0 ≤ e.weight) → vs.Nodup →
    (vs.map (fun v => (((alookup m v).getD []).map Edge.weight).sum)).sum ≤
      (m.map (fun kl => (kl.2.map Edge.weight).sum)).sum := by
  induction vs with
  | nil =>
    intro m hm _
    simpa using totalM_nonneg hm
  | cons v vs ih =>
    intro m hm hd
    rw [List.map_cons, List.sum_cons]
    cases hl : alookup m v with
    | none =>
      have h2 := ih m hm hd.of_cons
      simp only [hl, Option.getD_none, List.map_nil, List.sum_nil]
      linarith
    | some l =>
      have hsplit := map_sum_eraseKey m v l (fun kl => (kl.2.map Edge.weight).sum) hl
      have hmE : ∀ kl ∈ eraseKey m v, ∀ e ∈ kl.2, 0 ≤ e.weight :=
        fun kl hkl => hm kl ((eraseKey_sublist m v).mem hkl)
      have hcongr : (vs.map (fun w => (((alookup m w).getD []).map Edge.weight).sum)).sum =
          (vs.map (fun w => (((alookup (eraseKey m v) w).getD []).map Edge.weight).sum)).sum := by
        apply congrArg
        apply List.map_congr_left
        intro w hw
        have hne : w ≠ v := by
          intro hwv
          exact (List.nodup_cons.mp hd).1 (hwv ▸ hw)
        rw [alookup_eraseKey_ne m v w hne]
      have h2 := ih (eraseKey m v) hmE hd.of_cons
      rw [hcongr] at *
      simp only [hl, Option.getD_some] at *
      rw [hsplit]
      linarith

theorem pathWeight_le_srcs {g : Graph} (hN : NonnegW g) {reg : Bool} {p : List Edge} :
    ∀ {v d : Int}, IsPathW g reg v p d →
    pathWeight p ≤ ((srcs v p).map (adjWeight g)).sum := by
  induction p with
  | nil => intro v d _; simp [pathWeight, srcs]
  | cons e p ih =>
    intro v d h
    rw [pathWeight_cons]
    have h1 : e.weight ≤ adjWeight g v := single_le_adjWeight hN h.2.1
    have h2 := ih h.2.2
    simp only [srcs, List.map_cons, List.sum_cons]
    linarith

/-- A chain whose vertex sequence has no duplicate weighs at most the total
stored weight: its edges are drawn from pairwise-distinct adjacency lists. -/
theorem pathBound {g : Graph} (hN : NonnegW g) {reg : Bool} {p : List Edge} {v d : Int}
    (h : IsPathW g reg v p d) (hnd : (verts v p).Nodup) :
    pathWeight p ≤ edgeTotal g := by
  have h1 := pathWeight_le_srcs hN h
  have h2 : ((srcs v p).map (adjWeight g)).sum ≤ edgeTotal g := by
    have hsub := srcs_sublist_verts p v
    exact sum_adjWM_le (srcs v p) g.edges hN (hnd.sublist hsub)
  linarith

end BoundLemmas

section MapLeLemmas

/-- Pointwise dominance of distance maps: every key of `d` is present in `d'`
with a value that is no larger.  Every step of both algorithms only lowers
recorded distances, so the evolving map always dominates earlier ones. -/
def MapLe (d' d : List (Int × Int)) : Prop :=
  ∀ v c, alookup d v = some c → ∃ c', alookup d' v = some c' ∧ c' ≤ c

theorem mapLe_refl (d : List (Int × Int)) : MapLe d d :=
  fun v c h => ⟨c, h, le_refl c⟩

theorem mapLe_trans {d1 d2 d3 : List (Int × Int)} (h12 : MapLe d1 d2) (h23 : MapLe d2 d3) :
    MapLe d1 d3 := by
  intro v c h
  obtain ⟨c2, hc2, hle2⟩ := h23 v c h
  obtain ⟨c1, hc1, hle1⟩ := h12 v c2 hc2
  exact ⟨c1, hc1, le_trans hle1 hle2⟩

theorem mapLe_ainsert {d : List (Int × Int)} {k : Int} {x : Int}
    (h : ∀ c, alookup d k = some c → x ≤ c) : MapLe (ainsert d k x) d := by
  intro v c hv
  by_cases hk : k = v
  · subst hk
    exact ⟨x, alookup_ainsert_self d k x, h c hv⟩
  · rw [alookup_ainsert_ne d k v x hk]
    exact ⟨c, hv, le_refl c⟩

theorem mapLe_ainsert_lt {d : List (Int × Int)} {k : Int} {x : Int}
    (h : x < (alookup d k).getD intMax) : MapLe (ainsert d k x) d := by
  apply mapLe_ainsert
  intro c hc
  rw [hc] at h
  exact le_of_lt h

end MapLeLemmas

section BellmanFordLemmas

theorem bfCandidate_le_intMax (o : Option Int) (w : Int) : bfCandidate o w ≤ intMax := by
  cases o with
  | none => simp [bfCandidate, intMax]
  | some d =>
    unfold bfCandidate checked_add
    by_cases h : -2147483648 ≤ d + w ∧ d + w < 2147483648
    · simp only [Option.some_bind]
      rw [if_pos h, Option.getD_some]
      unfold intMax
      omega
    · simp only [Option.some_bind]
      rw [if_neg h]
      simp [intMax]

theorem bfCandidate_of_lt_intMax {o : Option Int} {w : Int}
    (h : bfCandidate o w < intMax) :
    ∃ du, o = some du ∧ bfCandidate o w = du + w ∧
      -2147483648 ≤ du + w ∧ du + w < 2147483648 := by
  cases o with
  | none => simp [bfCandidate, intMax] at h
  | some d =>
    unfold bfCandidate checked_add at h ⊢
    by_cases hr : -2147483648 ≤ d + w ∧ d + w < 2147483648
    · refine ⟨d, rfl, ?_, hr.1, hr.2⟩
      simp [hr]
    · simp [hr, intMax] at h

theorem bfCandidate_eq_of_inRange {du w : Int} (h1 : -2147483648 ≤ du + w)
    (h2 : du + w < 2147483648) : bfCandidate (some du) w = du + w := by
  unfold bfCandidate checked_add
  simp [h1, h2]

theorem relaxOne_eq (key : Int) (dists : List (Int × Int)) (e : Edge) :
    relaxOne key dists e =
      if bfCandidate (alookup dists key) e.weight < (alookup dists e.node_b_id).getD intMax
      then ainsert dists e.node_b_id (bfCandidate (alookup dists key) e.weight)
      else dists := rfl

theorem relaxOne_mapLe (key : Int) (dists : List (Int × Int)) (e : Edge) :
    MapLe (relaxOne key dists e) dists := by
  rw [relaxOne_eq]
  split
  · exact mapLe_ainsert_lt (by assumption)
  · exact mapLe_refl dists

theorem foldl_mapLe {β : Type} (f : List (Int × Int) → β → List (Int × Int))
    (hf : ∀ d x, MapLe (f d x) d) :
    ∀ (l : List β) (d : List (Int × Int)), MapLe (l.foldl f d) d := by
  intro l
  induction l with
  | nil => intro d; exact mapLe_refl d
  | cons x xs ih =>
    intro d
    exact mapLe_trans (ih (f d x)) (hf d x)

theorem relaxKey_mapLe (g : Graph) (dists : List (Int × Int)) (key : Int) :
    MapLe (relaxKey g dists key) dists :=
  foldl_mapLe (relaxOne key) (relaxOne_mapLe key) (adj g key) dists

theorem bfRound_mapLe (g : Graph) (dists : List (Int × Int)) :
    MapLe (bfRound g dists) dists := by
  unfold bfRound
  induction (g.nodes.map Prod.fst) generalizing dists with
  | nil => exact mapLe_refl dists
  | cons k ks ih =>
    exact mapLe_trans (ih (relaxKey g dists k)) (relaxKey_mapLe g dists k)

theorem bfIter_mapLe (g : Graph) : ∀ (n : Nat) (dists : List (Int × Int)),
    MapLe (bfIter g n dists) dists := by
  intro n
  induction n with
  | zero => intro d; exact mapLe_refl d
  | succ n ih =>
    intro d
    exact mapLe_trans (ih (bfRound g d)) (bfRound_mapLe g d)

theorem bfIter_succ_outer (g : Graph) : ∀ (n : Nat) (dists : List (Int × Int)),
    bfIter g (n + 1) dists = bfRound g (bfIter g n dists) := by
  intro n
  induction n with
  | zero => intro d; rfl
  | succ n ih =>
    intro d
    show bfIter g (n + 1) (bfRound g d) = _
    rw [ih (bfRound g d)]
    rfl

/-- Invariant of the Bellman-Ford distance map, for arbitrary weights: every
recorded distance is at most `i32::MAX` and is the exact (non-wrapped) weight
of some chain from the source whose step keys are all registered. -/
def BFInv (g : Graph) (s : Int) (dists : List (Int × Int)) : Prop :=
  ∀ v c, alookup dists v = some c →
    c ≤ intMax ∧ ∃ p, IsPathW g true s p v ∧ pathWeight p = c

theorem bfInv_init (g : Graph) (s : Int) : BFInv g s [(s, 0)] := by
  intro v c hv
  rw [alookup_cons] at hv
  by_cases h : s = v
  · simp only [h, if_true, Option.some.injEq] at hv
    subst hv
    exact ⟨by unfold intMax; omega, [], h.symm, rfl⟩
  · simp [h, alookup] at hv

theorem bfInv_relaxOne {g : Graph} {s key : Int} {dists : List (Int × Int)} {e : Edge}
    (hkey : Registered g key) (he : e ∈ adj g key) (hI : BFInv g s dists) :
    BFInv g s (relaxOne key dists e) := by
  rw [relaxOne_eq]
  split
  · rename_i hlt
    intro v c hv
    rw [alookup_ainsert] at hv
    by_cases htgt : e.node_b_id = v
    · simp only [htgt, if_true, Option.some.injEq] at hv
      subst hv
      have hcM : bfCandidate (alookup dists key) e.weight < intMax := by
        rcases hcur : alookup dists e.node_b_id with _ | ctgt
        · rw [hcur] at hlt
          simpa using hlt
        · rw [hcur] at hlt
          simp only [Option.getD_some] at hlt
          exact lt_of_lt_of_le hlt (hI e.node_b_id ctgt hcur).1
      obtain ⟨du, hdu, hcand, _, _⟩ := bfCandidate_of_lt_intMax hcM
      obtain ⟨_, p, hp, hw⟩ := hI key du hdu
      refine ⟨le_of_lt hcM, p ++ [e], ?_, ?_⟩
      · rw [isPathW_append]
        exact ⟨key, hp, fun _ => hkey, he, htgt.symm⟩
      · rw [pathWeight_append, hw, hcand, pathWeight_cons, pathWeight_nil]
        ring
    · simp only [htgt, if_false] at hv
      exact hI v c hv
  · exact hI

theorem bfInv_relaxKey {g : Graph} {s key : Int} {dists : List (Int × Int)}
    (hkey : Registered g key) (hI : BFInv g s dists) :
    BFInv g s (relaxKey g dists key) := by
  unfold relaxKey
  have : ∀ es : List Edge, (∀ e ∈ es, e ∈ adj g key) → ∀ d, BFInv g s d →
      BFInv g s (es.foldl (relaxOne key) d) := by
    intro es
    induction es with
    | nil => intro _ d hd; exact hd
    | cons e es ih =>
      intro hsub d hd
      exact ih (fun f hf => hsub f (List.mem_cons_of_mem e hf)) (relaxOne key d e)
        (bfInv_relaxOne hkey (hsub e (List.mem_cons_self e es)) hd)
  exact this (adj g key) (fun _ h => h) dists hI

theorem bfInv_foldl_keys {g : Graph} {s : Int} :
    ∀ (ks : List Int), (∀ k ∈ ks, Registered g k) → ∀ d, BFInv g s d →
    BFInv g s (ks.foldl (relaxKey g) d) := by
  intro ks
  induction ks with
  | nil => intro _ d hd; exact hd
  | cons k ks ih =>
    intro hsub d hd
    exact ih (fun x hx => hsub x (List.mem_cons_of_mem k hx)) (relaxKey g d k)
      (bfInv_relaxKey (hsub k (List.mem_cons_self k ks)) hd)

theorem bfInv_bfRound {g : Graph} {s : Int} {dists : List (Int × Int)}
    (hI : BFInv g s dists) : BFInv g s (bfRound g dists) := by
  unfold bfRound
  apply bfInv_foldl_keys (g.nodes.map Prod.fst) _ dists hI
  intro k hk
  unfold Registered
  rw [alookup_isSome_iff_mem_keys]
  exact hk

theorem bfInv_bfIter {g : Graph} {s : Int} : ∀ (n : Nat) {dists : List (Int × Int)},
    BFInv g s dists → BFInv g s (bfIter g n dists) := by
  intro n
  induction n with
  | zero => intro d hd; exact hd
  | succ n ih =>
    intro d hd
    exact ih (bfInv_bfRound hd)

theorem bfInv_final (g : Graph) (s : Int) :
    BFInv g s (bfIter g g.nodes.length [(s, 0)]) :=
  bfInv_bfIter g.nodes.length (bfInv_init g s)

end BellmanFordLemmas

section BellmanFordUpper

theorem bfVals_nonneg {g : Graph} {s : Int} {dists : List (Int × Int)}
    (hN : NonnegW g) (hI : BFInv g s dists) :
    ∀ v c, alookup dists v = some c → 0 ≤ c := by
  intro v c hv
  obtain ⟨_, p, hp, hw⟩ := hI v c hv
  rw [← hw]
  exact pathWeight_nonneg (path_weights_nonneg hN hp)

theorem bfCandidate_nonneg {g : Graph} {s key : Int} {dists : List (Int × Int)} {e : Edge}
    (hN : NonnegW g) (hI : BFInv g s dists) (he : e ∈ adj g key) :
    0 ≤ bfCandidate (alookup dists key) e.weight := by
  cases hk : alookup dists key with
  | none => simp [bfCandidate, intMax]
  | some du =>
    have hdu : 0 ≤ du := bfVals_nonneg hN hI key du hk
    have hw : 0 ≤ e.weight := adj_weight_nonneg hN he
    unfold bfCandidate checked_add
    by_cases hr : -2147483648 ≤ du + e.weight ∧ du + e.weight < 2147483648
    · simp only [Option.some_bind]
      rw [if_pos hr, Option.getD_some]
      linarith
    · simp only [Option.some_bind]
      rw [if_neg hr]
      simp [intMax]

/-- The source keeps recorded distance `0` throughout, for nonnegative weights. -/
def SrcZero (s : Int) (dists : List (Int × Int)) : Prop := alookup dists s = some 0

theorem srcZero_relaxOne {g : Graph} {s key : Int} {dists : List (Int × Int)} {e : Edge}
    (hN : NonnegW g) (hI : BFInv g s dists) (he : e ∈ adj g key) (hZ : SrcZero s dists) :
    SrcZero s (relaxOne key dists e) := by
  rw [relaxOne_eq]
  split
  · rename_i hlt
    unfold SrcZero
    by_cases htgt : e.node_b_id = s
    · exfalso
      rw [htgt, hZ] at hlt
      simp only [Option.getD_some] at hlt
      exact absurd hlt (not_lt.mpr (bfCandidate_nonneg hN hI he))
    · rw [alookup_ainsert_ne _ _ _ _ htgt]
      exact hZ
  · exact hZ

theorem bfInvZ_relaxKey {g : Graph} {s key : Int} {dists : List (Int × Int)}
    (hN : NonnegW g) (hkey : Registered g key) (hI : BFInv g s dists) (hZ : SrcZero s dists) :
    BFInv g s (relaxKey g dists key) ∧ SrcZero s (relaxKey g dists key) := by
  unfold relaxKey
  have : ∀ es : List Edge, (∀ e ∈ es, e ∈ adj g key) → ∀ d, BFInv g s d → SrcZero s d →
      BFInv g s (es.foldl (relaxOne key) d) ∧ SrcZero s (es.foldl (relaxOne key) d) := by
    intro es
    induction es with
    | nil => intro _ d hd hz; exact ⟨hd, hz⟩
    | cons e es ih =>
      intro hsub d hd hz
      have hmem := hsub e (List.mem_cons_self e es)
      exact ih (fun f hf => hsub f (List.mem_cons_of_mem e hf)) (relaxOne key d e)
        (bfInv_relaxOne hkey hmem hd) (srcZero_relaxOne hN hd hmem hz)
  exact this (adj g key) (fun _ h => h) dists hI hZ

theorem bfInvZ_bfRound {g : Graph} {s : Int} {dists : List (Int × Int)}
    (hN : NonnegW g) (hI : BFInv g s dists) (hZ : SrcZero s dists) :
    BFInv g s (bfRound g dists) ∧ SrcZero s (bfRound g dists) := by
  unfold bfRound
  have : ∀ ks : List Int, (∀ k ∈ ks, k ∈ g.nodes.map Prod.fst) → ∀ d, BFInv g s d →
      SrcZero s d → BFInv g s (ks.foldl (relaxKey g) d) ∧ SrcZero s (ks.foldl (relaxKey g) d) := by
    intro ks
    induction ks with
    | nil => intro _ d hd hz; exact ⟨hd, hz⟩
    | cons k ks ih =>
      intro hsub d hd hz
      have hreg : Registered g k := by
        unfold Registered
        rw [alookup_isSome_iff_mem_keys]
        exact hsub k (List.mem_cons_self k ks)
      obtain ⟨hd', hz'⟩ := bfInvZ_relaxKey hN hreg hd hz
      exact ih (fun x hx => hsub x (List.mem_cons_of_mem k hx)) (relaxKey g d k) hd' hz'
  exact this (g.nodes.map Prod.fst) (fun _ h => h) dists hI hZ

theorem bfInvZ_bfIter {g : Graph} {s : Int} (hN : NonnegW g) :
    ∀ (n : Nat), BFInv g s (bfIter g n [(s, 0)]) ∧ SrcZero s (bfIter g n [(s, 0)]) := by
  have hbase : ∀ (n : Nat) (d : List (Int × Int)), BFInv g s d → SrcZero s d →
      BFInv g s (bfIter g n d) ∧ SrcZero s (bfIter g n d) := by
    intro n
    induction n with
    | zero => intro d hd hz; exact ⟨hd, hz⟩
    | succ n ih =>
      intro d hd hz
      obtain ⟨hd', hz'⟩ := bfInvZ_bfRound hN hd hz
      exact ih (bfRound g d) hd' hz'
  intro n
  apply hbase n [(s, 0)] (bfInv_init g s)
  unfold SrcZero
  simp [alookup]

theorem relaxList_cover {g : Graph} {s u : Int} (hN : NonnegW g) (hreg : Registered g u)
    {e : Edge} :
    ∀ (es : List Edge) (d : List (Int × Int)) (cu : Int), (∀ f ∈ es, f ∈ adj g u) →
    BFInv g s d → e ∈ es → e ∈ adj g u → alookup d u = some cu → 0 ≤ cu →
    cu + e.weight < intMax →
    ∃ c', alookup (es.foldl (relaxOne u) d) e.node_b_id = some c' ∧ c' ≤ cu + e.weight := by
  intro es
  induction es with
  | nil => intro d cu _ _ hmem; simp at hmem
  | cons f es ih =>
    intro d cu hsub hI hmem hadj hu h0 hrange
    have hw : 0 ≤ e.weight := adj_weight_nonneg hN hadj
    rcases List.mem_cons.mp hmem with hef | hmem'
    · subst hef
      have hcand : bfCandidate (alookup d u) e.weight = cu + e.weight := by
        rw [hu]
        apply bfCandidate_eq_of_inRange
        · unfold intMax at hrange; omega
        · unfold intMax at hrange; omega
      have hstep : ∃ x, alookup (relaxOne u d e) e.node_b_id = some x ∧ x ≤ cu + e.weight := by
        rw [relaxOne_eq]
        split
        · rename_i hlt
          refine ⟨cu + e.weight, ?_, le_refl _⟩
          rw [← hcand]
          exact alookup_ainsert_self d e.node_b_id _
        · rename_i hge
          rw [hcand] at hge
          cases htgt : alookup d e.node_b_id with
          | none =>
            exfalso
            rw [htgt] at hge
            simp only [Option.getD_none] at hge
            exact hge hrange
          | some ctgt =>
            rw [htgt] at hge
            simp only [Option.getD_some] at hge
            exact ⟨ctgt, rfl, not_lt.mp hge⟩
      obtain ⟨x, hx, hxle⟩ := hstep
      obtain ⟨c', hc', hcle⟩ :=
        foldl_mapLe (relaxOne u) (relaxOne_mapLe u) es (relaxOne u d e) e.node_b_id x hx
      exact ⟨c', hc', le_trans hcle hxle⟩
    · have hfadj := hsub f (List.mem_cons_self f es)
      have hI' : BFInv g s (relaxOne u d f) := bfInv_relaxOne hreg hfadj hI
      obtain ⟨cu', hcu', hcule⟩ := relaxOne_mapLe u d f u cu hu
      have h0' : 0 ≤ cu' := bfVals_nonneg hN hI' u cu' hcu'
      obtain ⟨c', hc', hcle⟩ := ih (relaxOne u d f) cu'
        (fun x hx => hsub x (List.mem_cons_of_mem f hx)) hI' hmem' hadj hcu' h0'
        (by linarith)
      exact ⟨c', hc', by linarith⟩

theorem bfRound_cover {g : Graph} {s u : Int} {e : Edge} {d : List (Int × Int)} {cu : Int}
    (hN : NonnegW g) (hreg : Registered g u) (hI : BFInv g s d)
    (hu : alookup d u = some cu) (h0 : 0 ≤ cu) (hadj : e ∈ adj g u)
    (hrange : cu + e.weight < intMax) :
    ∃ c', alookup (bfRound g d) e.node_b_id = some c' ∧ c' ≤ cu + e.weight := by
  have hmem : u ∈ g.nodes.map Prod.fst := by
    rw [← alookup_isSome_iff_mem_keys]
    exact hreg
  obtain ⟨l₁, l₂, hkeys⟩ := List.append_of_mem hmem
  unfold bfRound
  rw [hkeys, List.foldl_append, List.foldl_cons]
  have hI1 : BFInv g s (l₁.foldl (relaxKey g) d) := by
    apply bfInv_foldl_keys l₁ _ d hI
    intro k hk
    unfold Registered
    rw [alookup_isSome_iff_mem_keys, hkeys]
    exact List.mem_append_left _ hk
  have hmono1 : MapLe (l₁.foldl (relaxKey g) d) d :=
    foldl_mapLe (relaxKey g) (relaxKey_mapLe g) l₁ d
  obtain ⟨cu1, hcu1, hcu1le⟩ := hmono1 u cu hu
  have h01 : 0 ≤ cu1 := bfVals_nonneg hN hI1 u cu1 hcu1
  obtain ⟨c2, hc2, hc2le⟩ := relaxList_cover hN hreg (adj g u) (l₁.foldl (relaxKey g) d) cu1
    (fun _ h => h) hI1 hadj hadj hcu1 h01 (by linarith)
  have hc2' : alookup (relaxKey g (l₁.foldl (relaxKey g) d) u) e.node_b_id = some c2 := hc2
  obtain ⟨c3, hc3, hc3le⟩ :=
    foldl_mapLe (relaxKey g) (relaxKey_mapLe g) l₂
      (relaxKey g (l₁.foldl (relaxKey g) d) u) e.node_b_id c2 hc2'
  exact ⟨c3, hc3, by linarith⟩

theorem bfIter_cover {g : Graph} {s : Int} (hN : NonnegW g) (hT : 2 * edgeTotal g < intMax) :
    ∀ (k : Nat) (p : List Edge) (d : Int), IsPathW g true s p d → p.length ≤ k →
    pathWeight p ≤ edgeTotal g →
    ∃ c, alookup (bfIter g k [(s, 0)]) d = some c ∧ c ≤ pathWeight p := by
  have htot : 0 ≤ edgeTotal g := totalM_nonneg hN
  intro k
  induction k with
  | zero =>
    intro p d hp hlen _
    have hnil : p = [] := List.eq_nil_of_length_eq_zero (Nat.le_zero.mp hlen)
    subst hnil
    rw [isPathW_nil] at hp
    subst hp
    exact ⟨0, by simp [bfIter, alookup], pathWeight_nonneg (by simp)⟩
  | succ k ih =>
    intro p d hp hlen hwt
    rcases List.eq_nil_or_concat p with hnil | ⟨p', e, hconcat⟩
    · subst hnil
      rw [isPathW_nil] at hp
      subst hp
      obtain ⟨_, hz⟩ := bfInvZ_bfIter hN (k + 1)
      exact ⟨0, hz, pathWeight_nonneg (by simp)⟩
    · rw [List.concat_eq_append] at hconcat
      subst hconcat
      rw [isPathW_append] at hp
      obtain ⟨m, hp', hstep⟩ := hp
      obtain ⟨hregm, hadj, htgt⟩ := hstep
      have hwts : ∀ f ∈ p' ++ [e], 0 ≤ f.weight := by
        apply path_weights_nonneg hN
        rw [isPathW_append]
        exact ⟨m, hp', hregm, hadj, htgt⟩
      have hwe : 0 ≤ e.weight := hwts e (List.mem_append_right _ (List.mem_cons_self e []))
      have hwp' : pathWeight p' ≤ pathWeight (p' ++ [e]) := by
        rw [pathWeight_append, pathWeight_cons, pathWeight_nil]
        linarith
      have hlen' : p'.length ≤ k := by
        rw [List.length_append, List.length_cons, List.length_nil] at hlen
        omega
      obtain ⟨cu, hcu, hcule⟩ := ih p' m hp' hlen' (le_trans hwp' hwt)
      have hI : BFInv g s (bfIter g k [(s, 0)]) := (bfInvZ_bfIter hN k).1
      have h0 : 0 ≤ cu := bfVals_nonneg hN hI m cu hcu
      have hrange : cu + e.weight < intMax := by
        have : cu + e.weight ≤ pathWeight (p' ++ [e]) := by
          rw [pathWeight_append, pathWeight_cons, pathWeight_nil]
          linarith
        calc cu + e.weight ≤ pathWeight (p' ++ [e]) := this
          _ ≤ edgeTotal g := hwt
          _ ≤ 2 * edgeTotal g := by linarith
          _ < intMax := hT
      rw [bfIter_succ_outer]
      obtain ⟨c', hc', hcle⟩ := bfRound_cover hN (hregm rfl) hI hcu h0 hadj hrange
      subst htgt
      refine ⟨c', hc', ?_⟩
      calc c' ≤ cu + e.weight := hcle
        _ ≤ pathWeight (p' ++ [e]) := by
          rw [pathWeight_append, pathWeight_cons, pathWeight_nil]
          linarith

end BellmanFordUpper

section BellmanFordAPI

theorem srcs_length (p : List Edge) : ∀ v : Int, (srcs v p).length = p.length := by
  induction p with
  | nil => intro v; rfl
  | cons e p ih => intro v; simp [srcs, ih]

theorem srcs_registered {g : Graph} {p : List Edge} :
    ∀ {v d : Int}, IsPathW g true v p d → ∀ x ∈ srcs v p, Registered g x := by
  induction p with
  | nil => intro v d _ x hx; simp [srcs] at hx
  | cons e p ih =>
    intro v d h x hx
    rcases List.mem_cons.mp hx with h1 | h2
    · subst h1
      exact h.1 rfl
    · exact ih h.2.2 x h2

theorem regPath_length_le {g : Graph} {s d : Int} {p : List Edge}
    (hp : IsPathW g true s p d) (hnd : (verts s p).Nodup) :
    p.length ≤ g.nodes.length := by
  have hnds : (srcs s p).Nodup := hnd.sublist (srcs_sublist_verts p s)
  have hsub : srcs s p ⊆ g.nodes.map Prod.fst := by
    intro x hx
    rw [← alookup_isSome_iff_mem_keys]
    exact srcs_registered hp x hx
  have := (List.subperm_of_subset hnds hsub).length_le
  rw [srcs_length, List.length_map] at this
  exact this

theorem bellman_ford_eq_lookup (g : Graph) (s d : Int) :
    bellman_ford g s d = (alookup (bfIter g g.nodes.length [(s, 0)]) d).getD intMax := rfl

theorem bellman_ford_present {g : Graph} {s d c : Int}
    (h : alookup (bfIter g g.nodes.length [(s, 0)]) d = some c) :
    bellman_ford g s d = c := by
  rw [bellman_ford_eq_lookup, h, Option.getD_some]

theorem bellman_ford_absent {g : Graph} {s d : Int}
    (h : alookup (bfIter g g.nodes.length [(s, 0)]) d = none) :
    bellman_ford g s d = intMax := by
  rw [bellman_ford_eq_lookup, h, Option.getD_none]

/-- A finite Bellman-Ford answer is the exact weight of a chain through
registered keys (arbitrary weights). -/
theorem bellman_ford_finite_path {g : Graph} {s d : Int}
    (h : bellman_ford g s d ≠ intMax) :
    ∃ p, IsPathW g true s p d ∧ pathWeight p = bellman_ford g s d := by
  cases hl : alookup (bfIter g g.nodes.length [(s, 0)]) d with
  | none => exact absurd (bellman_ford_absent hl) h
  | some c =>
    obtain ⟨_, p, hp, hw⟩ := bfInv_final g s d c hl
    rw [bellman_ford_present hl]
    exact ⟨p, hp, hw⟩

/-- Upper bound: the Bellman-Ford answer is at most the weight of any chain
through registered keys with duplicate-free vertices (nonnegative weights,
overflow-free totals). -/
theorem bellman_ford_le_path {g : Graph} {s d : Int} {p : List Edge}
    (hN : NonnegW g) (hT : 2 * edgeTotal g < intMax)
    (hp : IsPathW g true s p d) (hnd : (verts s p).Nodup) :
    bellman_ford g s d ≤ pathWeight p ∧ bellman_ford g s d ≠ intMax := by
  have hlen := regPath_length_le hp hnd
  have hwt : pathWeight p ≤ edgeTotal g := pathBound hN hp hnd
  obtain ⟨c, hc, hcle⟩ := bfIter_cover hN hT g.nodes.length p d hp hlen hwt
  rw [bellman_ford_present hc]
  constructor
  · exact hcle
  · have htot : 0 ≤ edgeTotal g := totalM_nonneg hN
    intro hcontra
    rw [hcontra] at hcle
    have : pathWeight p ≤ edgeTotal g := hwt
    unfold intMax at hcle hT
    omega

/-- Bellman-Ford distance from any identifier to itself is `0` when all
weights are nonnegative (registration not required). -/
theorem bellman_ford_self_zero {g : Graph} (hN : NonnegW g) (s : Int) :
    bellman_ford g s s = 0 := by
  obtain ⟨_, hz⟩ := bfInvZ_bfIter hN g.nodes.length
  exact bellman_ford_present hz

/-- Without a registered-key chain from `s` to `d`, Bellman-Ford answers the
sentinel (arbitrary weights). -/
theorem bellman_ford_no_path {g : Graph} {s d : Int}
    (h : ∀ p, ¬ IsPathW g true s p d) : bellman_ford g s d = intMax := by
  cases hl : alookup (bfIter g g.nodes.length [(s, 0)]) d with
  | none => exact bellman_ford_absent hl
  | some c =>
    obtain ⟨_, p, hp, _⟩ := bfInv_final g s d c hl
    exact absurd hp (h p)

theorem relaxOne_unreg {s key : Int} {e : Edge}
    (hks : key ≠ s) : relaxOne key [(s, 0)] e = [(s, 0)] := by
  rw [relaxOne_eq]
  have hkl : alookup ([(s, 0)] : List (Int × Int)) key = none := by
    rw [alookup_cons, if_neg (fun h => hks h.symm)]
    rfl
  rw [hkl]
  have hcand : bfCandidate none e.weight = intMax := rfl
  rw [hcand]
  split
  · rename_i hlt
    exfalso
    cases htgt : alookup ([(s, 0)] : List (Int × Int)) e.node_b_id with
    | none =>
      rw [htgt] at hlt
      simp at hlt
    | some c0 =>
      have hc0 : c0 = 0 := by
        rw [alookup_cons] at htgt
        by_cases hse : s = e.node_b_id
        · simp only [hse, if_true, Option.some.injEq] at htgt
          exact htgt.symm
        · simp [hse, alookup] at htgt
      rw [htgt, hc0] at hlt
      simp only [Option.getD_some] at hlt
      unfold intMax at hlt
      omega
  · rfl

/-- When the source key is not a registered point, the Bellman-Ford distance
map never grows beyond its initial `{source: 0}` binding. -/
theorem bf_unreg_fixed {g : Graph} {s : Int} (hs : alookup g.nodes s = none) :
    ∀ n, bfIter g n [(s, 0)] = [(s, 0)] := by
  have hround : bfRound g [(s, 0)] = [(s, 0)] := by
    unfold bfRound
    have : ∀ ks : List Int, (∀ k ∈ ks, k ∈ g.nodes.map Prod.fst) →
        ks.foldl (relaxKey g) [(s, 0)] = [(s, 0)] := by
      intro ks
      induction ks with
      | nil => intro _; rfl
      | cons k ks ih =>
        intro hsub
        have hks : k ≠ s := by
          intro hk
          subst hk
          have := hsub k (List.mem_cons_self k ks)
          rw [← alookup_isSome_iff_mem_keys, hs] at this
          simp at this
        have hfix : relaxKey g [(s, 0)] k = [(s, 0)] := by
          unfold relaxKey
          have : ∀ es : List Edge, es.foldl (relaxOne k) [(s, 0)] = [(s, 0)] := by
            intro es
            induction es with
            | nil => rfl
            | cons e es ihe =>
              rw [List.foldl_cons, relaxOne_unreg hks, ihe]
          exact this (adj g k)
        rw [List.foldl_cons, hfix]
        exact ih (fun x hx => hsub x (List.mem_cons_of_mem k hx))
    exact this (g.nodes.map Prod.fst) (fun _ h => h)
  intro n
  induction n with
  | zero => rfl
  | succ n ih =>
    rw [bfIter_succ_outer, ih, hround]

/-- Bellman-Ford distance from an unregistered identifier to itself is `0`
(arbitrary weights): the initial binding survives every round untouched. -/
theorem bellman_ford_unreg_self {g : Graph} {s : Int}
    (hs : alookup g.nodes s = none) : bellman_ford g s s = 0 := by
  apply bellman_ford_present
  rw [bf_unreg_fixed hs]
  simp [alookup]

end BellmanFordAPI

section DijkstraBasic

theorem popMin_eq_none : ∀ {h : List State}, popMin h = none ↔ h = [] := by
  intro h
  cases h with
  | nil => simp [popMin]
  | cons x xs =>
    simp only [popMin]
    constructor
    · intro hc
      exfalso
      cases hps : popMin xs with
      | none => rw [hps] at hc; simp at hc
      | some pr =>
        rw [hps] at hc
        cases pr with
        | mk m rest' =>
          by_cases hcmp : x.cost ≤ m.cost <;> simp [hcmp] at hc
    · intro hc
      simp at hc

theorem popMin_perm : ∀ {h : List State} {s : State} {rest : List State},
    popMin h = some (s, rest) → h.Perm (s :: rest) := by
  intro h
  induction h with
  | nil => intro s rest hc; simp [popMin] at hc
  | cons x xs ih =>
    intro s rest hc
    simp only [popMin] at hc
    cases hps : popMin xs with
    | none =>
      rw [hps] at hc
      rw [popMin_eq_none] at hps
      subst hps
      simp only [Option.some.injEq, Prod.mk.injEq] at hc
      rw [← hc.1, ← hc.2]
    | some pr =>
      rw [hps] at hc
      cases pr with
      | mk m rest' =>
        by_cases hcmp : x.cost ≤ m.cost
        · simp only [hcmp, if_true, Option.some.injEq, Prod.mk.injEq] at hc
          rw [← hc.1, ← hc.2]
        · simp only [hcmp, if_false, Option.some.injEq, Prod.mk.injEq] at hc
          have hIH := ih hps
          rw [← hc.1, ← hc.2]
          exact (hIH.cons x).trans (List.Perm.swap m x rest')

theorem popMin_mem {h : List State} {s : State} {rest : List State}
    (hp : popMin h = some (s, rest)) : s ∈ h :=
  (popMin_perm hp).symm.subset (List.mem_cons_self s rest)

theorem popMin_sub {h : List State} {s : State} {rest : List State}
    (hp : popMin h = some (s, rest)) : ∀ x ∈ rest, x ∈ h :=
  fun x hx => (popMin_perm hp).symm.subset (List.mem_cons_of_mem s hx)

theorem popMin_length {h : List State} {s : State} {rest : List State}
    (hp : popMin h = some (s, rest)) : h.length = rest.length + 1 := by
  have := (popMin_perm hp).length_eq
  simpa using this

theorem dRelax_eq (cost : Int) (acc : List (Int × Int) × List State) (e : Edge) :
    dRelax cost acc e =
      if wrap32 (cost + e.weight) < (alookup acc.1 e.node_b_id).getD intMax then
        (ainsert acc.1 e.node_b_id (wrap32 (cost + e.weight)),
          ⟨wrap32 (cost + e.weight), e.node_b_id⟩ :: acc.2)
      else acc := rfl

theorem dRelax_mapLe (cost : Int) (acc : List (Int × Int) × List State) (e : Edge) :
    MapLe (dRelax cost acc e).1 acc.1 := by
  rw [dRelax_eq]
  split
  · exact mapLe_ainsert_lt (by assumption)
  · exact mapLe_refl acc.1

theorem foldl_dRelax_mapLe (cost : Int) :
    ∀ (es : List Edge) (acc : List (Int × Int) × List State),
    MapLe (es.foldl (dRelax cost) acc).1 acc.1 := by
  intro es
  induction es with
  | nil => intro acc; exact mapLe_refl acc.1
  | cons e es ih =>
    intro acc
    exact mapLe_trans (ih (dRelax cost acc e)) (dRelax_mapLe cost acc e)

theorem dProcess_mapLe (g : Graph) (cost pos : Int) (dists : List (Int × Int))
    (heap : List State) : MapLe (dProcess g cost pos dists heap).1 dists :=
  foldl_dRelax_mapLe cost (adj g pos) (dists, heap)

theorem dLoop_mapLe (g : Graph) :
    ∀ (fuel : Nat) (heap : List State) (dists final : List (Int × Int)),
    dLoop g fuel heap dists = some final → MapLe final dists := by
  intro fuel
  induction fuel with
  | zero => intro heap dists final hc; simp [dLoop] at hc
  | succ n ih =>
    intro heap dists final hc
    rw [dLoop] at hc
    split at hc
    · simp only [Option.some.injEq] at hc
      rw [← hc]
      exact mapLe_refl dists
    · rename_i st heap' hpop
      split at hc
      · rename_i cur hl
        split at hc
        · exact ih heap' dists final hc
        · exact mapLe_trans (ih _ _ final hc)
            (dProcess_mapLe g st.cost st.position dists heap')
      · exact mapLe_trans (ih _ _ final hc)
          (dProcess_mapLe g st.cost st.position dists heap')

/-- Reachability invariant of the Dijkstra loop (arbitrary weights): every
recorded key is connected to the source by a chain of stored edges, and every
heap position already has a recorded distance. -/
def DReachInv (g : Graph) (s : Int) (heap : List State) (dists : List (Int × Int)) : Prop :=
  (∀ v c, alookup dists v = some c → ∃ p, IsPathW g false s p v) ∧
  (∀ st ∈ heap, (alookup dists st.position).isSome)

theorem dProcess_reach {g : Graph} {s pos cost : Int} {dists : List (Int × Int)}
    {heap : List State} (hpos : ∃ p, IsPathW g false s p pos)
    (hI : DReachInv g s heap dists) :
    DReachInv g s (dProcess g cost pos dists heap).2 (dProcess g cost pos dists heap).1 := by
  unfold dProcess
  have : ∀ es : List Edge, (∀ e ∈ es, e ∈ adj g pos) →
      ∀ acc : List (Int × Int) × List State, DReachInv g s acc.2 acc.1 →
      DReachInv g s (es.foldl (dRelax cost) acc).2 (es.foldl (dRelax cost) acc).1 := by
    intro es
    induction es with
    | nil => intro _ acc hacc; exact hacc
    | cons e es ih =>
      intro hsub acc hacc
      apply ih (fun f hf => hsub f (List.mem_cons_of_mem e hf))
      rw [dRelax_eq]
      split
      · constructor
        · intro v c hv
          rw [alookup_ainsert] at hv
          by_cases htgt : e.node_b_id = v
          · obtain ⟨p, hp⟩ := hpos
            refine ⟨p ++ [e], ?_⟩
            rw [isPathW_append]
            refine ⟨pos, hp, ?_⟩
            exact ⟨by simp, hsub e (List.mem_cons_self e es), htgt.symm⟩
          · rw [if_neg htgt] at hv
            exact hacc.1 v c hv
        · intro st hst
          rcases List.mem_cons.mp hst with h1 | h2
          · subst h1
            simp [alookup_ainsert_self]
          · rcases Option.isSome_iff_exists.mp (hacc.2 st h2) with ⟨c, hc⟩
            rw [alookup_ainsert]
            split
            · simp
            · simp [hc]
      · exact hacc
  exact this (adj g pos) (fun _ h => h) (dists, heap) hI

theorem dLoop_reach {g : Graph} {s : Int} :
    ∀ (fuel : Nat) (heap : List State) (dists final : List (Int × Int)),
    dLoop g fuel heap dists = some final → DReachInv g s heap dists →
    ∀ v c, alookup final v = some c → ∃ p, IsPathW g false s p v := by
  intro fuel
  induction fuel with
  | zero => intro heap dists final hc; simp [dLoop] at hc
  | succ n ih =>
    intro heap dists final hc hI
    rw [dLoop] at hc
    split at hc
    · simp only [Option.some.injEq] at hc
      rw [← hc]
      exact hI.1
    · rename_i st heap' hpop
      have hmem := popMin_mem hpop
      have hsome := hI.2 st hmem
      rcases Option.isSome_iff_exists.mp hsome with ⟨cur, hcur⟩
      have hpos : ∃ p, IsPathW g false s p st.position := hI.1 st.position cur hcur
      have hI' : DReachInv g s heap' dists :=
        ⟨hI.1, fun x hx => hI.2 x (popMin_sub hpop x hx)⟩
      split at hc
      · split at hc
        · exact ih heap' dists final hc hI'
        · exact ih _ _ final hc (dProcess_reach hpos hI')
      · exact ih _ _ final hc (dProcess_reach hpos hI')

end DijkstraBasic

section DijkstraTermination

theorem wrap32_range (n : Int) : -2147483648 ≤ wrap32 n ∧ wrap32 n < 2147483648 := by
  unfold wrap32
  have h1 : 0 ≤ (n + 2147483648) % 4294967296 := Int.emod_nonneg _ (by norm_num)
  have h2 : (n + 2147483648) % 4294967296 < 4294967296 := Int.emod_lt_of_pos _ (by norm_num)
  omega

theorem wrap32_eq_self {n : Int} (h1 : -2147483648 ≤ n) (h2 : n < 2147483648) :
    wrap32 n = n := by
  unfold wrap32
  rw [Int.emod_eq_of_lt (by omega) (by omega)]
  omega

theorem mem_potKeys_self (g : Graph) (s : Int) : s ∈ potKeys g s := by
  unfold potKeys
  rw [List.mem_dedup]
  exact List.mem_cons_self _ _

theorem mem_potKeys_tgt {g : Graph} {s pos : Int} {e : Edge} (he : e ∈ adj g pos) :
    e.node_b_id ∈ potKeys g s := by
  obtain ⟨l, hl, hel⟩ := adj_mem_entry he
  unfold potKeys
  rw [List.mem_dedup]
  apply List.mem_cons_of_mem
  have : ∀ m : List (Int × List Edge), (pos, l) ∈ m → e.node_b_id ∈
      m.foldr (fun kl acc => kl.2.map Edge.node_b_id ++ acc) [] := by
    intro m
    induction m with
    | nil => intro hm; simp at hm
    | cons kl rest ih =>
      intro hm
      rcases List.mem_cons.mp hm with h1 | h2
      · subst h1
        simp only [List.foldr_cons]
        exact List.mem_append_left _ (List.mem_map.mpr ⟨e, hel, rfl⟩)
      · simp only [List.foldr_cons]
        exact List.mem_append_right _ (ih h2)
  exact this g.edges hl

theorem potKeys_nodup (g : Graph) (s : Int) : (potKeys g s).Nodup :=
  List.nodup_dedup _

/-- Every recorded distance stays at or above `i32::MIN` (true for the initial
`0` and for every wrapped insertion). -/
def DRange (dists : List (Int × Int)) : Prop :=
  ∀ v c, alookup dists v = some c → -2147483648 ≤ c

theorem pot_ainsert_self {dists : List (Int × Int)} {k x : Int}
    (hx : -2147483648 ≤ x) (hlt : x < (alookup dists k).getD intMax)
    (hR : DRange dists) : pot (ainsert dists k x) k < pot dists k := by
  unfold pot
  rw [alookup_ainsert_self]
  cases hk : alookup dists k with
  | none =>
    rw [hk] at hlt
    simp only [Option.getD_none, Option.getD_some] at hlt ⊢
    unfold intMax at hlt ⊢
    omega
  | some c =>
    have hc := hR k c hk
    rw [hk] at hlt
    simp only [Option.getD_some] at hlt ⊢
    omega

theorem pot_ainsert_ne {dists : List (Int × Int)} {k x v : Int} (h : k ≠ v) :
    pot (ainsert dists k x) v = pot dists v := by
  unfold pot
  rw [alookup_ainsert_ne _ _ _ _ h]

theorem sum_map_lt_of_mem {l : List Int} {f f' : Int → Nat} {v : Int} :
    l.Nodup → v ∈ l → f' v < f v → (∀ x, x ≠ v → f' x = f x) →
    (l.map f').sum < (l.map f).sum := by
  induction l with
  | nil => intro _ hv; simp at hv
  | cons x xs ih =>
    intro hnd hv hlt heq
    rcases List.mem_cons.mp hv with h1 | h2
    · subst h1
      have hxs : ∀ y ∈ xs, y ≠ v := by
        intro y hy hyv
        exact (List.nodup_cons.mp hnd).1 (hyv ▸ hy)
      have hmap : xs.map f' = xs.map f :=
        List.map_congr_left (fun y hy => heq y (hxs y hy))
      simp only [List.map_cons, List.sum_cons, hmap]
      omega
    · have hxv : x ≠ v := by
        intro hxv
        exact (List.nodup_cons.mp hnd).1 (hxv ▸ h2)
      have := ih (List.nodup_cons.mp hnd).2 h2 hlt heq
      simp only [List.map_cons, List.sum_cons, heq x hxv]
      omega

theorem dRange_dRelax {cost : Int} {acc : List (Int × Int) × List State} {e : Edge}
    (hR : DRange acc.1) : DRange (dRelax cost acc e).1 := by
  rw [dRelax_eq]
  split
  · intro v c hv
    rw [alookup_ainsert] at hv
    by_cases htgt : e.node_b_id = v
    · rw [if_pos htgt] at hv
      simp only [Option.some.injEq] at hv
      rw [← hv]
      exact (wrap32_range (cost + e.weight)).1
    · rw [if_neg htgt] at hv
      exact hR v c hv
  · exact hR

theorem dRelax_phi {g : Graph} {s cost pos : Int} {acc : List (Int × Int) × List State}
    {e : Edge} (he : e ∈ adj g pos) (hR : DRange acc.1) :
    phi g s (dRelax cost acc e).2 (dRelax cost acc e).1 ≤ phi g s acc.2 acc.1 := by
  rw [dRelax_eq]
  split
  · rename_i hlt
    unfold phi
    simp only [List.length_cons]
    have hsum : (((potKeys g s).map (pot (ainsert acc.1 e.node_b_id
        (wrap32 (cost + e.weight))))).sum) < (((potKeys g s).map (pot acc.1)).sum) := by
      apply sum_map_lt_of_mem (potKeys_nodup g s) (mem_potKeys_tgt he)
      · exact pot_ainsert_self (wrap32_range (cost + e.weight)).1 hlt hR
      · intro x hx
        exact pot_ainsert_ne (fun h => hx h.symm)
    omega
  · exact le_refl _

theorem dProcess_phi {g : Graph} {s cost pos : Int} {dists : List (Int × Int)}
    {heap : List State} (hR : DRange dists) :
    phi g s (dProcess g cost pos dists heap).2 (dProcess g cost pos dists heap).1 ≤
      phi g s heap dists ∧ DRange (dProcess g cost pos dists heap).1 := by
  unfold dProcess
  have : ∀ es : List Edge, (∀ e ∈ es, e ∈ adj g pos) →
      ∀ acc : List (Int × Int) × List State, DRange acc.1 →
      phi g s (es.foldl (dRelax cost) acc).2 (es.foldl (dRelax cost) acc).1 ≤
        phi g s acc.2 acc.1 ∧ DRange (es.foldl (dRelax cost) acc).1 := by
    intro es
    induction es with
    | nil => intro _ acc hacc; exact ⟨le_refl _, hacc⟩
    | cons e es ih =>
      intro hsub acc hacc
      have hmem := hsub e (List.mem_cons_self e es)
      obtain ⟨h1, h2⟩ := ih (fun f hf => hsub f (List.mem_cons_of_mem e hf))
        (dRelax cost acc e) (dRange_dRelax hacc)
      exact ⟨le_trans h1 (dRelax_phi hmem hacc), h2⟩
  exact this (adj g pos) (fun _ h => h) (dists, heap) hR

theorem dLoop_isSome {g : Graph} {s : Int} :
    ∀ (fuel : Nat) (heap : List State) (dists : List (Int × Int)), DRange dists →
    phi g s heap dists < fuel → (dLoop g fuel heap dists).isSome := by
  intro fuel
  induction fuel with
  | zero => intro heap dists _ hphi; omega
  | succ n ih =>
    intro heap dists hR hphi
    rw [dLoop]
    split
    · simp
    · rename_i st heap' hpop
      have hlen : heap.length = heap'.length + 1 := popMin_length hpop
      have hphi' : phi g s heap' dists < n := by
        unfold phi at hphi ⊢
        omega
      split
      · split
        · exact ih heap' dists hR hphi'
        · obtain ⟨hle, hR'⟩ := @dProcess_phi g s st.cost st.position dists heap' hR
          exact ih _ _ hR' (lt_of_le_of_lt hle hphi')
      · obtain ⟨hle, hR'⟩ := @dProcess_phi g s st.cost st.position dists heap' hR
        exact ih _ _ hR' (lt_of_le_of_lt hle hphi')

/-- The fuel supplied by `kkomatsu_dijkstra` always suffices: the loop empties
its heap and yields a final distance map. -/
theorem dFinalMap_isSome (g : Graph) (s : Int) : (dFinalMap g s).isSome := by
  unfold dFinalMap dijkstraFuel
  apply @dLoop_isSome g s (phi g s [⟨0, s⟩] [(s, 0)] + 1) [⟨0, s⟩] [(s, 0)]
  · intro v c hv
    rw [alookup_cons] at hv
    by_cases h : s = v
    · rw [if_pos h] at hv
      simp only [Option.some.injEq] at hv
      omega
    · rw [if_neg h] at hv
      simp [alookup] at hv
  · omega

end DijkstraTermination

section DijkstraInvariant

/-- Initial-segment domination: every initial segment of the chain `p` ends at
a vertex whose recorded distance is at most the segment weight. -/
def SegDom (dists : List (Int × Int)) (s : Int) (p : List Edge) : Prop :=
  ∀ i : Nat, ∃ c', alookup dists (endV s (p.take i)) = some c' ∧ c' ≤ pathWeight (p.take i)

/-- The certificate attached to every recorded distance and every heap entry of
the Dijkstra loop: a duplicate-free chain of exactly that weight, all of whose
initial segments are dominated by the distance map. -/
def GoodPath (g : Graph) (s : Int) (dists : List (Int × Int)) (v c : Int) : Prop :=
  ∃ p, IsPathW g false s p v ∧ pathWeight p = c ∧ (verts s p).Nodup ∧ SegDom dists s p

/-- Local triangle property at `v`: every outgoing stored edge is already
relaxed with respect to `c`. -/
def DTri (g : Graph) (dists : List (Int × Int)) (v c : Int) : Prop :=
  ∀ e ∈ adj g v, ∃ c', alookup dists e.node_b_id = some c' ∧ c' ≤ c + e.weight

/-- Loop invariant of the Dijkstra loop for nonnegative, overflow-free weights. -/
def DInv (g : Graph) (s : Int) (heap : List State) (dists : List (Int × Int)) : Prop :=
  (∀ v c, alookup dists v = some c → GoodPath g s dists v c) ∧
  (∀ st ∈ heap, (∃ cc, alookup dists st.position = some cc ∧ cc ≤ st.cost) ∧
    GoodPath g s dists st.position st.cost) ∧
  (∀ v c, alookup dists v = some c →
    (∃ st ∈ heap, st.position = v ∧ st.cost = c) ∨ DTri g dists v c)

/-- What survives of the invariant once the heap has drained. -/
def DFinal (g : Graph) (s : Int) (dists : List (Int × Int)) : Prop :=
  (∀ v c, alookup dists v = some c →
    ∃ p, IsPathW g false s p v ∧ pathWeight p = c ∧ (verts s p).Nodup) ∧
  (∀ v c, alookup dists v = some c → DTri g dists v c)

theorem segDom_mono {d' d : List (Int × Int)} {s : Int} {p : List Edge}
    (hle : MapLe d' d) (h : SegDom d s p) : SegDom d' s p := by
  intro i
  obtain ⟨c', hc', hcle⟩ := h i
  obtain ⟨c'', hc'', hcle'⟩ := hle _ c' hc'
  exact ⟨c'', hc'', le_trans hcle' hcle⟩

theorem goodPath_mono {g : Graph} {s : Int} {d' d : List (Int × Int)} {v c : Int}
    (hle : MapLe d' d) (h : GoodPath g s d v c) : GoodPath g s d' v c := by
  obtain ⟨p, hp, hw, hnd, hsd⟩ := h
  exact ⟨p, hp, hw, hnd, segDom_mono hle hsd⟩

theorem dTri_mono {g : Graph} {d' d : List (Int × Int)} {v c : Int}
    (hle : MapLe d' d) (h : DTri g d v c) : DTri g d' v c := by
  intro e he
  obtain ⟨c', hc', hcle⟩ := h e he
  obtain ⟨c'', hc'', hcle'⟩ := hle _ c' hc'
  exact ⟨c'', hc'', le_trans hcle' hcle⟩

theorem adjWeight_le_total {g : Graph} (hN : NonnegW g) (v : Int) :
    adjWeight g v ≤ edgeTotal g := by
  have := sum_adjWM_le [v] g.edges hN (List.nodup_singleton v)
  simpa [adjWeight, adj, edgeTotal] using this

theorem goodPath_bounds {g : Graph} {s : Int} {d : List (Int × Int)} {v c : Int}
    (hN : NonnegW g) (h : GoodPath g s d v c) : 0 ≤ c ∧ c ≤ edgeTotal g := by
  obtain ⟨p, hp, hw, hnd, _⟩ := h
  constructor
  · rw [← hw]
    exact pathWeight_nonneg (path_weights_nonneg hN hp)
  · rw [← hw]
    exact pathBound hN hp hnd

theorem endV_mem_targets {p : List Edge} (hne : p ≠ []) :
    ∀ v : Int, endV v p ∈ p.map Edge.node_b_id := by
  induction p with
  | nil => exact absurd rfl hne
  | cons e q ih =>
    intro v
    rw [endV_cons]
    cases hq : q with
    | nil =>
      subst hq
      simp [endV]
    | cons f r =>
      rw [List.map_cons]
      apply List.mem_cons_of_mem
      rw [← hq]
      exact ih (by simp [hq]) e.node_b_id

/-- A duplicate-free chain from `s` back to `s` is empty. -/
theorem path_self_nil {g : Graph} {reg : Bool} {s : Int} {p : List Edge}
    (hp : IsPathW g reg s p s) (hnd : (verts s p).Nodup) : p = [] := by
  cases hpe : p with
  | nil => rfl
  | cons e q =>
    exfalso
    subst hpe
    have hend := isPathW_endV hp
    have hmem : endV s (e :: q) ∈ (e :: q).map Edge.node_b_id :=
      endV_mem_targets (by simp) s
    rw [← hend] at hmem
    unfold verts at hnd
    exact (List.nodup_cons.mp hnd).1 hmem

theorem endV_take_mem_verts (p : List Edge) : ∀ (v : Int) (i : Nat),
    endV v (p.take i) ∈ verts v p := by
  induction p with
  | nil =>
    intro v i
    simp [endV, verts]
  | cons e q ih =>
    intro v i
    cases i with
    | zero => simp [endV, verts]
    | succ j =>
      rw [List.take_succ_cons, endV_cons, verts_cons]
      exact List.mem_cons_of_mem _ (ih e.node_b_id j)

theorem mem_verts_take {p : List Edge} {x : Int} :
    ∀ {v : Int}, x ∈ verts v p → ∃ i : Nat, endV v (p.take i) = x := by
  induction p with
  | nil =>
    intro v hx
    simp [verts] at hx
    exact ⟨0, by simp [endV, hx.symm]⟩
  | cons e q ih =>
    intro v hx
    rw [verts_cons] at hx
    rcases List.mem_cons.mp hx with h1 | h2
    · exact ⟨0, by simp [endV, h1.symm]⟩
    · obtain ⟨i, hi⟩ := ih h2
      exact ⟨i + 1, by rw [List.take_succ_cons, endV_cons]; exact hi⟩

theorem dInv_init (g : Graph) (s : Int) : DInv g s [⟨0, s⟩] [(s, 0)] := by
  have hlook : ∀ v c, alookup ([(s, 0)] : List (Int × Int)) v = some c → v = s ∧ c = 0 := by
    intro v c hv
    rw [alookup_cons] at hv
    by_cases h : s = v
    · rw [if_pos h] at hv
      simp only [Option.some.injEq] at hv
      exact ⟨h.symm, hv.symm⟩
    · rw [if_neg h] at hv
      simp [alookup] at hv
  have hgood : GoodPath g s [(s, 0)] s 0 := by
    refine ⟨[], rfl, rfl, by simp [verts], ?_⟩
    intro i
    refine ⟨0, ?_, ?_⟩
    · simp [endV, alookup_cons, alookup]
    · simp [pathWeight]
  refine ⟨?_, ?_, ?_⟩
  · intro v c hv
    obtain ⟨hv1, hv2⟩ := hlook v c hv
    subst hv1; subst hv2
    exact hgood
  · intro st hst
    rcases List.mem_cons.mp hst with h1 | h2
    · subst h1
      refine ⟨⟨0, ?_, le_refl 0⟩, hgood⟩
      simp [alookup_cons, alookup]
    · simp at h2
  · intro v c hv
    obtain ⟨hv1, hv2⟩ := hlook v c hv
    left
    exact ⟨⟨0, s⟩, List.mem_cons_self _ _, hv1.symm, hv2.symm⟩

end DijkstraInvariant

section DijkstraStep

/-- Invariant carried through the edge fold of one processed pop `(c, pos)`. -/
def FoldInv (g : Graph) (s pos c : Int) (done : List Edge) (dists : List (Int × Int))
    (heap : List State) : Prop :=
  (∀ v cv, alookup dists v = some cv → GoodPath g s dists v cv) ∧
  (∀ st ∈ heap, (∃ cc, alookup dists st.position = some cc ∧ cc ≤ st.cost) ∧
    GoodPath g s dists st.position st.cost) ∧
  (∀ v cv, alookup dists v = some cv → v ≠ pos →
    (∃ st ∈ heap, st.position = v ∧ st.cost = cv) ∨ DTri g dists v cv) ∧
  alookup dists pos = some c ∧
  (∀ f ∈ done, ∃ c', alookup dists f.node_b_id = some c' ∧ c' ≤ c + f.weight)

theorem foldInv_step {g : Graph} {s pos c : Int} {done : List Edge}
    {dists : List (Int × Int)} {heap : List State} {e : Edge}
    (hN : NonnegW g) (hT : SmallW g) (he : e ∈ adj g pos)
    (hF : FoldInv g s pos c done dists heap) :
    FoldInv g s pos c (e :: done) (dRelax c (dists, heap) e).1
      (dRelax c (dists, heap) e).2 := by
  obtain ⟨hA1, hA2, hA3, hA4, hA5⟩ := hF
  have hGP : GoodPath g s dists pos c := hA1 pos c hA4
  obtain ⟨hc0, hcT⟩ := goodPath_bounds hN hGP
  have hw0 : 0 ≤ e.weight := adj_weight_nonneg hN he
  have hwT : e.weight ≤ edgeTotal g :=
    le_trans (single_le_adjWeight hN he) (adjWeight_le_total hN pos)
  have hsum : c + e.weight < intMax := by
    unfold SmallW at hT
    omega
  have hwrap : wrap32 (c + e.weight) = c + e.weight := by
    apply wrap32_eq_self
    · omega
    · unfold intMax at hsum
      omega
  rw [dRelax_eq]
  simp only
  split
  · rename_i hlt
    rw [hwrap] at hlt ⊢
    have hne : e.node_b_id ≠ pos := by
      intro hcontra
      rw [hcontra, hA4] at hlt
      simp only [Option.getD_some] at hlt
      omega
    have hML : MapLe (ainsert dists e.node_b_id (c + e.weight)) dists :=
      mapLe_ainsert_lt hlt
    obtain ⟨P, hP, hPw, hPnd, hPsd⟩ := hGP
    have hPwts : ∀ f ∈ P, 0 ≤ f.weight := path_weights_nonneg hN hP
    have hnotin : e.node_b_id ∉ verts s P := by
      intro hmem
      obtain ⟨i, hi⟩ := mem_verts_take hmem
      obtain ⟨cx, hcx, hcxle⟩ := hPsd i
      rw [hi] at hcx
      rw [hcx] at hlt
      simp only [Option.getD_some] at hlt
      have := pathWeight_take_le hPwts i
      omega
    have hP' : IsPathW g false s (P ++ [e]) e.node_b_id := by
      rw [isPathW_append]
      exact ⟨pos, hP, by simp, he, rfl⟩
    have hP'w : pathWeight (P ++ [e]) = c + e.weight := by
      rw [pathWeight_append, hPw, pathWeight_cons, pathWeight_nil]
      ring
    have hP'nd : (verts s (P ++ [e])).Nodup := by
      rw [verts_concat, List.nodup_append]
      refine ⟨hPnd, List.nodup_singleton _, ?_⟩
      intro x hx hx'
      rcases List.mem_singleton.mp hx' with h
      exact hnotin (h ▸ hx)
    have hP'sd : SegDom (ainsert dists e.node_b_id (c + e.weight)) s (P ++ [e]) := by
      intro i
      by_cases hi : i ≤ P.length
      · rw [List.take_append_of_le_length hi]
        exact segDom_mono hML hPsd i
      · have hlen : (P ++ [e]).length ≤ i := by
          rw [List.length_append, List.length_cons, List.length_nil]
          omega
        rw [List.take_of_length_le hlen, endV_concat]
        exact ⟨c + e.weight, alookup_ainsert_self _ _ _, le_of_eq hP'w.symm⟩
    have hGP' : GoodPath g s (ainsert dists e.node_b_id (c + e.weight))
        e.node_b_id (c + e.weight) := ⟨P ++ [e], hP', hP'w, hP'nd, hP'sd⟩
    refine ⟨?_, ?_, ?_, ?_, ?_⟩
    · intro v cv hv
      rw [alookup_ainsert] at hv
      by_cases htgt : e.node_b_id = v
      · rw [if_pos htgt] at hv
        simp only [Option.some.injEq] at hv
        rw [← hv, ← htgt]
        exact hGP'
      · rw [if_neg htgt] at hv
        exact goodPath_mono hML (hA1 v cv hv)
    · intro st hst
      rcases List.mem_cons.mp hst with h1 | h2
      · subst h1
        exact ⟨⟨c + e.weight, alookup_ainsert_self _ _ _, le_refl _⟩, hGP'⟩
      · obtain ⟨⟨cc, hcc, hccle⟩, hgp⟩ := hA2 st h2
        obtain ⟨cc', hcc', hccle'⟩ := hML _ cc hcc
        exact ⟨⟨cc', hcc', le_trans hccle' hccle⟩, goodPath_mono hML hgp⟩
    · intro v cv hv hvpos
      rw [alookup_ainsert] at hv
      by_cases htgt : e.node_b_id = v
      · rw [if_pos htgt] at hv
        simp only [Option.some.injEq] at hv
        left
        exact ⟨⟨c + e.weight, e.node_b_id⟩, List.mem_cons_self _ _, htgt, hv⟩
      · rw [if_neg htgt] at hv
        rcases hA3 v cv hv hvpos with ⟨st, hst, hp1, hp2⟩ | htri
        · left
          exact ⟨st, List.mem_cons_of_mem _ hst, hp1, hp2⟩
        · right
          exact dTri_mono hML htri
    · rw [alookup_ainsert_ne _ _ _ _ hne]
      exact hA4
    · intro f hf
      rcases List.mem_cons.mp hf with h1 | h2
      · subst h1
        exact ⟨c + f.weight, alookup_ainsert_self _ _ _, le_refl _⟩
      · obtain ⟨c', hc', hcle⟩ := hA5 f h2
        obtain ⟨c'', hc'', hcle'⟩ := hML _ c' hc'
        exact ⟨c'', hc'', le_trans hcle' hcle⟩
  · rename_i hge
    rw [hwrap] at hge
    refine ⟨hA1, hA2, hA3, hA4, ?_⟩
    intro f hf
    rcases List.mem_cons.mp hf with h1 | h2
    · subst h1
      cases htgt : alookup dists f.node_b_id with
      | none =>
        exfalso
        rw [htgt] at hge
        simp only [Option.getD_none] at hge
        exact hge (by omega)
      | some ctgt =>
        rw [htgt] at hge
        simp only [Option.getD_some] at hge
        exact ⟨ctgt, rfl, not_lt.mp hge⟩
    · exact hA5 f h2

theorem foldInv_run {g : Graph} {s pos c : Int} (hN : NonnegW g) (hT : SmallW g) :
    ∀ (es done : List Edge) (dists : List (Int × Int)) (heap : List State),
    (∀ e ∈ es, e ∈ adj g pos) → FoldInv g s pos c done dists heap →
    FoldInv g s pos c (es.reverse ++ done) (es.foldl (dRelax c) (dists, heap)).1
      (es.foldl (dRelax c) (dists, heap)).2 := by
  intro es
  induction es with
  | nil => intro done dists heap _ hF; simpa using hF
  | cons e es ih =>
    intro done dists heap hsub hF
    have hstep := foldInv_step hN hT (hsub e (List.mem_cons_self e es)) hF
    have := ih (e :: done) (dRelax c (dists, heap) e).1 (dRelax c (dists, heap) e).2
      (fun f hf => hsub f (List.mem_cons_of_mem e hf)) hstep
    rw [List.foldl_cons]
    rw [List.reverse_cons, List.append_assoc]
    simpa using this

theorem dProcess_DInv {g : Graph} {s pos c : Int} {dists : List (Int × Int)}
    {heap' : List State} (hN : NonnegW g) (hT : SmallW g)
    (hA4 : alookup dists pos = some c)
    (hA1 : ∀ v cv, alookup dists v = some cv → GoodPath g s dists v cv)
    (hA2 : ∀ st ∈ heap', (∃ cc, alookup dists st.position = some cc ∧ cc ≤ st.cost) ∧
      GoodPath g s dists st.position st.cost)
    (hA3 : ∀ v cv, alookup dists v = some cv → v ≠ pos →
      (∃ st ∈ heap', st.position = v ∧ st.cost = cv) ∨ DTri g dists v cv) :
    DInv g s (dProcess g c pos dists heap').2 (dProcess g c pos dists heap').1 := by
  have hF0 : FoldInv g s pos c [] dists heap' := by
    refine ⟨hA1, hA2, hA3, hA4, ?_⟩
    intro f hf
    simp at hf
  have hrun := foldInv_run hN hT (adj g pos) [] dists heap' (fun _ h => h) hF0
  unfold dProcess
  obtain ⟨hB1, hB2, hB3, hB4, hB5⟩ := hrun
  refine ⟨hB1, hB2, ?_⟩
  intro v cv hv
  by_cases hvpos : v = pos
  · right
    have hcv : cv = c := by
      rw [hvpos] at hv
      rw [hv] at hB4
      simp only [Option.some.injEq] at hB4
      exact hB4
    subst hvpos
    subst hcv
    intro f hf
    exact hB5 f (List.mem_append_left _ (List.mem_reverse.mpr hf))
  · exact hB3 v cv hv hvpos

end DijkstraStep

section DijkstraMain

theorem dLoop_DFinal {g : Graph} {s : Int} (hN : NonnegW g) (hT : SmallW g) :
    ∀ (fuel : Nat) (heap : List State) (dists final : List (Int × Int)),
    dLoop g fuel heap dists = some final → DInv g s heap dists → DFinal g s final := by
  intro fuel
  induction fuel with
  | zero => intro heap dists final hc; simp [dLoop] at hc
  | succ n ih =>
    intro heap dists final hc hI
    rw [dLoop] at hc
    split at hc
    · rename_i hpop
      simp only [Option.some.injEq] at hc
      subst hc
      rw [popMin_eq_none] at hpop
      subst hpop
      refine ⟨?_, ?_⟩
      · intro v c hv
        obtain ⟨p, hp, hw, hnd, _⟩ := hI.1 v c hv
        exact ⟨p, hp, hw, hnd⟩
      · intro v c hv
        rcases hI.2.2 v c hv with ⟨st, hst, _, _⟩ | htri
        · simp at hst
        · exact htri
    · rename_i st heap' hpop
      have hmem := popMin_mem hpop
      obtain ⟨⟨cc, hcc, hccle⟩, hgp⟩ := hI.2.1 st hmem
      have hA2' : ∀ stx ∈ heap', (∃ c2, alookup dists stx.position = some c2 ∧
          c2 ≤ stx.cost) ∧ GoodPath g s dists stx.position stx.cost :=
        fun stx hstx => hI.2.1 stx (popMin_sub hpop stx hstx)
      split at hc
      · rename_i cur hl
        have hcceq : cc = cur := by
          rw [hl] at hcc
          simp only [Option.some.injEq] at hcc
          exact hcc.symm
        subst hcceq
        split at hc
        · rename_i hgt
          apply ih heap' dists final hc
          refine ⟨hI.1, hA2', ?_⟩
          intro v cv hv
          rcases hI.2.2 v cv hv with ⟨stx, hstx, hp1, hp2⟩ | htri
          · left
            rcases List.mem_cons.mp ((popMin_perm hpop).subset hstx) with h1 | h2
            · exfalso
              subst h1
              rw [← hp1, hl] at hv
              simp only [Option.some.injEq] at hv
              omega
            · exact ⟨stx, h2, hp1, hp2⟩
          · right
            exact htri
        · rename_i hgt
          have hctc : alookup dists st.position = some st.cost := by
            rw [hl]
            have : cc = st.cost := le_antisymm hccle (not_lt.mp hgt)
            rw [← this]
          apply ih _ _ final hc
          apply dProcess_DInv hN hT hctc hI.1 hA2'
          intro v cv hv hvpos
          rcases hI.2.2 v cv hv with ⟨stx, hstx, hp1, hp2⟩ | htri
          · left
            rcases List.mem_cons.mp ((popMin_perm hpop).subset hstx) with h1 | h2
            · exfalso
              subst h1
              exact hvpos hp1.symm
            · exact ⟨stx, h2, hp1, hp2⟩
          · right
            exact htri
      · rename_i hl
        rw [hl] at hcc
        simp at hcc

theorem dFinalMap_spec {g : Graph} {s : Int} {final : List (Int × Int)}
    (hN : NonnegW g) (hT : SmallW g) (hfm : dFinalMap g s = some final) :
    DFinal g s final ∧ MapLe final [(s, 0)] := by
  unfold dFinalMap at hfm
  exact ⟨dLoop_DFinal hN hT _ _ _ final hfm (dInv_init g s),
    dLoop_mapLe g _ _ _ final hfm⟩

theorem dFinal_src_zero {g : Graph} {s : Int} {final : List (Int × Int)}
    (hDF : DFinal g s final) (hML : MapLe final [(s, 0)]) :
    alookup final s = some 0 := by
  obtain ⟨c, hc, hcle⟩ := hML s 0 (by simp [alookup_cons])
  obtain ⟨p, hp, hw, hnd⟩ := hDF.1 s c hc
  have hnil : p = [] := path_self_nil hp hnd
  subst hnil
  rw [pathWeight_nil] at hw
  rw [← hw] at hc
  exact hc

theorem dFinal_le {g : Graph} {s : Int} {final : List (Int × Int)}
    (hDF : DFinal g s final) :
    ∀ (p : List Edge) (v d cv : Int), IsPathW g false v p d →
    alookup final v = some cv → ∃ cd, alookup final d = some cd ∧ cd ≤ cv + pathWeight p := by
  intro p
  induction p with
  | nil =>
    intro v d cv hp hv
    rw [isPathW_nil] at hp
    subst hp
    exact ⟨cv, hv, by rw [pathWeight_nil]; omega⟩
  | cons e q ih =>
    intro v d cv hp hv
    obtain ⟨_, he, hq⟩ := hp
    obtain ⟨c1, hc1, hc1le⟩ := hDF.2 v cv hv e he
    obtain ⟨cd, hcd, hcdle⟩ := ih e.node_b_id d c1 hq hc1
    refine ⟨cd, hcd, ?_⟩
    rw [pathWeight_cons]
    omega

theorem registered_not_isNone {g : Graph} {v : Int} (h : Registered g v) :
    (alookup g.nodes v).isNone = false := by
  unfold Registered at h
  rcases Option.isSome_iff_exists.mp h with ⟨x, hx⟩
  rw [hx]
  rfl

theorem kk_eq_final {g : Graph} {s d : Int} {final : List (Int × Int)}
    (hs : Registered g s) (hd : Registered g d) (hfm : dFinalMap g s = some final) :
    kkomatsu_dijkstra g s d = (alookup final d).getD intMax := by
  unfold kkomatsu_dijkstra
  rw [if_neg (by
    rw [registered_not_isNone hs, registered_not_isNone hd]
    simp)]
  rw [hfm]

theorem kk_unregistered {g : Graph} {s d : Int}
    (h : ¬ Registered g s ∨ ¬ Registered g d) :
    kkomatsu_dijkstra g s d = intMax := by
  unfold kkomatsu_dijkstra
  rw [if_pos]
  rcases h with h | h
  · left
    unfold Registered at h
    simp only [Option.isNone_iff_eq_none]
    exact Option.not_isSome_iff_eq_none.mp h
  · right
    unfold Registered at h
    simp only [Option.isNone_iff_eq_none]
    exact Option.not_isSome_iff_eq_none.mp h

theorem kk_le_path {g : Graph} {s d : Int} {p : List Edge}
    (hN : NonnegW g) (hT : SmallW g) (hs : Registered g s) (hd : Registered g d)
    (hp : IsPathW g false s p d) :
    kkomatsu_dijkstra g s d ≤ pathWeight p ∧ kkomatsu_dijkstra g s d ≠ intMax := by
  obtain ⟨final, hfm⟩ := Option.isSome_iff_exists.mp (dFinalMap_isSome g s)
  obtain ⟨hDF, hML⟩ := dFinalMap_spec hN hT hfm
  have hsrc := dFinal_src_zero hDF hML
  obtain ⟨cd, hcd, hcdle⟩ := dFinal_le hDF p s d 0 hp hsrc
  have hkk := kk_eq_final hs hd hfm
  rw [hkk, hcd, Option.getD_some]
  obtain ⟨q, hq, hqw, hqnd⟩ := hDF.1 d cd hcd
  have hbound : cd ≤ edgeTotal g := by
    rw [← hqw]
    exact pathBound hN hq hqnd
  have htot : 0 ≤ edgeTotal g := totalM_nonneg hN
  unfold SmallW at hT
  constructor
  · omega
  · intro hcontra
    rw [hcontra] at hbound
    omega

theorem kk_finite_path {g : Graph} {s d : Int} (hN : NonnegW g) (hT : SmallW g)
    (hval : kkomatsu_dijkstra g s d ≠ intMax) :
    ∃ p, IsPathW g false s p d ∧ pathWeight p = kkomatsu_dijkstra g s d ∧
      (verts s p).Nodup := by
  by_cases hs : Registered g s
  · by_cases hd : Registered g d
    · obtain ⟨final, hfm⟩ := Option.isSome_iff_exists.mp (dFinalMap_isSome g s)
      obtain ⟨hDF, _⟩ := dFinalMap_spec hN hT hfm
      have hkk := kk_eq_final hs hd hfm
      cases hld : alookup final d with
      | none =>
        rw [hld, Option.getD_none] at hkk
        exact absurd hkk hval
      | some cd =>
        rw [hld, Option.getD_some] at hkk
        obtain ⟨p, hp, hw, hnd⟩ := hDF.1 d cd hld
        rw [hkk]
        exact ⟨p, hp, hw, hnd⟩
    · exact absurd (kk_unregistered (Or.inr hd)) hval
  · exact absurd (kk_unregistered (Or.inl hs)) hval

theorem kk_self_zero {g : Graph} {s : Int} (hN : NonnegW g) (hT : SmallW g)
    (hs : Registered g s) : kkomatsu_dijkstra g s s = 0 := by
  obtain ⟨final, hfm⟩ := Option.isSome_iff_exists.mp (dFinalMap_isSome g s)
  obtain ⟨hDF, hML⟩ := dFinalMap_spec hN hT hfm
  rw [kk_eq_final hs hs hfm, dFinal_src_zero hDF hML, Option.getD_some]

/-- Without any stored-edge chain from `s` to `d`, the Dijkstra method answers
the sentinel (arbitrary weights). -/
theorem kk_no_path {g : Graph} {s d : Int} (h : ∀ p, ¬ IsPathW g false s p d) :
    kkomatsu_dijkstra g s d = intMax := by
  by_cases hs : Registered g s
  · by_cases hd : Registered g d
    · obtain ⟨final, hfm⟩ := Option.isSome_iff_exists.mp (dFinalMap_isSome g s)
      rw [kk_eq_final hs hd hfm]
      have hreach : ∀ v c, alookup final v = some c → ∃ p, IsPathW g false s p v := by
        apply dLoop_reach (dijkstraFuel g s) [⟨0, s⟩] [(s, 0)] final hfm
        constructor
        · intro v c hv
          rw [alookup_cons] at hv
          by_cases hsv : s = v
          · exact ⟨[], hsv.symm⟩
          · rw [if_neg hsv] at hv
            simp [alookup] at hv
        · intro st hst
          rcases List.mem_cons.mp hst with h1 | h2
          · subst h1
            simp [alookup_cons, alookup]
          · simp at h2
      cases hld : alookup final d with
      | none => rw [Option.getD_none]
      | some cd =>
        obtain ⟨p, hp⟩ := hreach d cd hld
        exact absurd hp (h p)
    · exact kk_unregistered (Or.inr hd)
  · exact kk_unregistered (Or.inl hs)

end DijkstraMain

section RefIntLemmas

theorem path_true_of_false {g : Graph} (hR : RefInt g) {p : List Edge} :
    ∀ {v d : Int}, IsPathW g false v p d → IsPathW g true v p d := by
  induction p with
  | nil => intro v d h; exact h
  | cons e q ih =>
    intro v d h
    obtain ⟨_, he, hq⟩ := h
    obtain ⟨l, hl, _⟩ := adj_mem_entry he
    exact ⟨fun _ => (hR (v, l) hl).1, he, ih hq⟩

theorem path_endpoint_registered {g : Graph} (hR : RefInt g) {reg : Bool} {p : List Edge} :
    ∀ {v d : Int}, IsPathW g reg v p d → p ≠ [] → Registered g d := by
  induction p with
  | nil => intro v d _ hne; exact absurd rfl hne
  | cons e q ih =>
    intro v d h _
    obtain ⟨_, he, hq⟩ := h
    cases hq' : q with
    | nil =>
      subst hq'
      rw [isPathW_nil] at hq
      subst hq
      obtain ⟨l, hl, hel⟩ := adj_mem_entry he
      exact (hR (v, l) hl).2 e hel
    | cons f r =>
      subst hq'
      exact ih hq (by simp)

theorem bellman_ford_le_intMax (g : Graph) (s d : Int) :
    bellman_ford g s d ≤ intMax := by
  cases hl : alookup (bfIter g g.nodes.length [(s, 0)]) d with
  | none => rw [bellman_ford_absent hl]
  | some c =>
    rw [bellman_ford_present hl]
    exact (bfInv_final g s d c hl).1

theorem kk_le_intMax {g : Graph} (hN : NonnegW g) (hT : SmallW g) (s d : Int) :
    kkomatsu_dijkstra g s d ≤ intMax := by
  by_cases hs : Registered g s
  · by_cases hd : Registered g d
    · obtain ⟨final, hfm⟩ := Option.isSome_iff_exists.mp (dFinalMap_isSome g s)
      obtain ⟨hDF, _⟩ := dFinalMap_spec hN hT hfm
      rw [kk_eq_final hs hd hfm]
      cases hld : alookup final d with
      | none => rw [Option.getD_none]
      | some cd =>
        rw [Option.getD_some]
        obtain ⟨p, hp, hw, hnd⟩ := hDF.1 d cd hld
        have h1 : cd ≤ edgeTotal g := by
          rw [← hw]
          exact pathBound hN hp hnd
        have htot : 0 ≤ edgeTotal g := totalM_nonneg hN
        unfold SmallW at hT
        omega
    · rw [kk_unregistered (Or.inr hd)]
  · rw [kk_unregistered (Or.inl hs)]

end RefIntLemmas

section SymmetryLemmas

theorem adj_subset_pushEntry (m : List (Int × List Edge)) (k : Int) (e : Edge) (v : Int) :
    ∀ x ∈ (alookup m v).getD [], x ∈ (alookup (pushEntry m k e) v).getD [] := by
  intro x hx
  rw [alookup_pushEntry]
  by_cases h : k = v
  · rw [if_pos h, Option.getD_some]
    apply List.mem_append_left
    rw [h]
    exact hx
  · rw [if_neg h]
    exact hx

theorem adj_add_edge_subset (g : Graph) (e0 : Edge) (v : Int) :
    ∀ x ∈ adj g v, x ∈ adj (add_edge g e0) v := by
  intro x hx
  unfold add_edge adj
  simp only
  apply adj_subset_pushEntry
  apply adj_subset_pushEntry
  exact hx

theorem mem_pushEntry {m : List (Int × List Edge)} {k : Int} {e : Edge} {kl : Int × List Edge} :
    kl ∈ pushEntry m k e → kl ∈ m ∨ kl = (k, (alookup m k).getD [] ++ [e]) := by
  induction m with
  | nil =>
    intro h
    simp only [pushEntry] at h
    rcases List.mem_singleton.mp h with h
    right
    rw [h]
    rfl
  | cons kl0 rest ih =>
    intro h
    by_cases hk : kl0.1 = k
    · rw [show pushEntry (kl0 :: rest) k e = (kl0.1, kl0.2 ++ [e]) :: rest by
        simp [pushEntry, hk]] at h
      rcases List.mem_cons.mp h with h1 | h2
      · right
        rw [h1, alookup_cons, if_pos hk, Option.getD_some, hk]
      · left
        exact List.mem_cons_of_mem _ h2
    · rw [show pushEntry (kl0 :: rest) k e = kl0 :: pushEntry rest k e by
        simp [pushEntry, hk]] at h
      rcases List.mem_cons.mp h with h1 | h2
      · left
        rw [h1]
        exact List.mem_cons_self _ _
      · rcases ih h2 with h3 | h4
        · left
          exact List.mem_cons_of_mem _ h3
        · right
          rw [h4, alookup_cons, if_neg hk]

theorem symmAdj_new : SymmAdj Graph.new := by
  intro kl hkl
  simp [Graph.new] at hkl

theorem symmAdj_add_node {g : Graph} (hS : SymmAdj g) (n : Node) :
    SymmAdj (add_node g n) := by
  intro kl hkl e he
  have : (add_node g n).edges = g.edges := rfl
  rw [this] at hkl
  obtain ⟨h1, h2⟩ := hS kl hkl e he
  refine ⟨h1, ?_⟩
  have hadj : adj (add_node g n) e.node_b_id = adj g e.node_b_id := rfl
  rw [hadj]
  exact h2

theorem symmAdj_add_edge {g : Graph} (hS : SymmAdj g) (e0 : Edge) :
    SymmAdj (add_edge g e0) := by
  set a := e0.node_a_id with ha
  set b := e0.node_b_id with hb
  set rev : Edge := ⟨e0.node_b_id, e0.node_a_id, e0.weight⟩ with hrev
  have hedges : (add_edge g e0).edges = pushEntry (pushEntry g.edges a e0) b rev := rfl
  have hrev_mem : rev ∈ adj (add_edge g e0) b := by
    unfold adj
    rw [hedges, alookup_pushEntry, if_pos rfl, Option.getD_some]
    exact List.mem_append_right _ (List.mem_cons_self _ _)
  have he0_mem : e0 ∈ adj (add_edge g e0) a := by
    unfold adj
    rw [hedges, alookup_pushEntry]
    by_cases hba : b = a
    · rw [if_pos hba, Option.getD_some, alookup_pushEntry, if_pos hba.symm, Option.getD_some]
      apply List.mem_append_left
      exact List.mem_append_right _ (List.mem_cons_self _ _)
    · rw [if_neg hba, alookup_pushEntry, if_pos rfl, Option.getD_some]
      exact List.mem_append_right _ (List.mem_cons_self _ _)
  have hold : ∀ v : Int, ∀ x ∈ adj g v, x ∈ adj (add_edge g e0) v :=
    adj_add_edge_subset g e0
  have hlift : ∀ (kl : Int × List Edge), kl ∈ g.edges → ∀ e ∈ kl.2,
      e.node_a_id = kl.1 ∧
        (⟨e.node_b_id, e.node_a_id, e.weight⟩ : Edge) ∈ adj (add_edge g e0) e.node_b_id := by
    intro kl hkl e he
    obtain ⟨h1, h2⟩ := hS kl hkl e he
    exact ⟨h1, hold _ _ h2⟩
  have hlook : ∀ (v : Int), ∀ e ∈ adj g v,
      e.node_a_id = v ∧
        (⟨e.node_b_id, e.node_a_id, e.weight⟩ : Edge) ∈ adj (add_edge g e0) e.node_b_id := by
    intro v e he
    obtain ⟨l, hl, hel⟩ := adj_mem_entry he
    exact hlift (v, l) hl e hel
  intro kl hkl e he
  rw [hedges] at hkl
  rcases mem_pushEntry hkl with hkl1 | hkl2
  · rcases mem_pushEntry hkl1 with hkl3 | hkl4
    · exact hlift kl hkl3 e he
    · rw [hkl4] at he ⊢
      simp only at he ⊢
      rcases List.mem_append.mp he with he1 | he2
      · exact hlook a e he1
      · rcases List.mem_singleton.mp he2 with rfl
        exact ⟨rfl, hrev_mem⟩
  · rw [hkl2] at he ⊢
    simp only at he ⊢
    rcases List.mem_append.mp he with he1 | he2
    · by_cases hba : b = a
      · rw [show alookup (pushEntry g.edges a e0) b = some ((alookup g.edges a).getD [] ++ [e0])
          by rw [alookup_pushEntry, if_pos hba.symm, ← hba]] at he1
        rw [Option.getD_some] at he1
        rcases List.mem_append.mp he1 with he3 | he4
        · obtain ⟨h1, h2⟩ := hlook a e he3
          exact ⟨h1.trans hba.symm, h2⟩
        · rcases List.mem_singleton.mp he4 with rfl
          exact ⟨hba.symm, hrev_mem⟩
      · rw [show alookup (pushEntry g.edges a e0) b = alookup g.edges b
          by rw [alookup_pushEntry, if_neg (fun h => hba h.symm)]] at he1
        exact hlook b e he1
    · rcases List.mem_singleton.mp he2 with rfl
      exact ⟨rfl, he0_mem⟩

theorem symmAdj_buildGraph (ops : List Op) : SymmAdj (buildGraph ops) := by
  have : ∀ (l : List Op) (g : Graph), SymmAdj g → SymmAdj (l.foldl applyOp g) := by
    intro l
    induction l with
    | nil => intro g hg; exact hg
    | cons op rest ih =>
      intro g hg
      apply ih
      cases op with
      | addNode n => exact symmAdj_add_node hg n
      | addEdge e => exact symmAdj_add_edge hg e
  exact this ops Graph.new symmAdj_new

/-- Reversal of a stored chain across the symmetric adjacency structure. -/
theorem path_reverse {g : Graph} (hS : SymmAdj g) {p : List Edge} :
    ∀ {v d : Int}, IsPathW g false v p d →
    ∃ q, IsPathW g false d q v ∧ pathWeight q = pathWeight p ∧ q.length = p.length := by
  induction p with
  | nil =>
    intro v d h
    rw [isPathW_nil] at h
    subst h
    exact ⟨[], rfl, rfl, rfl⟩
  | cons e q ih =>
    intro v d h
    obtain ⟨_, he, hq⟩ := h
    obtain ⟨r, hr, hrw, hrl⟩ := ih hq
    obtain ⟨l, hl, hel⟩ := adj_mem_entry he
    obtain ⟨hcons, hrevmem⟩ := hS (v, l) hl e hel
    refine ⟨r ++ [⟨e.node_b_id, e.node_a_id, e.weight⟩], ?_, ?_, ?_⟩
    · rw [isPathW_append]
      refine ⟨e.node_b_id, hr, ?_⟩
      refine ⟨by simp, hrevmem, ?_⟩
      simp only
      exact hcons.symm
    · rw [pathWeight_append, hrw, pathWeight_cons, pathWeight_cons, pathWeight_nil]
      simp only
      ring
    · rw [List.length_append, hrl]
      simp [Nat.add_comm]

end SymmetryLemmas

section EqualityLemmas

theorem kk_lt_registered {g : Graph} {s d : Int} (h : kkomatsu_dijkstra g s d < intMax) :
    Registered g s ∧ Registered g d := by
  constructor
  · by_contra hs
    rw [kk_unregistered (Or.inl hs)] at h
    exact lt_irrefl _ h
  · by_contra hd
    rw [kk_unregistered (Or.inr hd)] at h
    exact lt_irrefl _ h

/-- The two algorithms compute the same value for registered endpoints on a
well-formed graph (nonnegative weights, no overflow, referential integrity). -/
theorem bf_eq_kk_reg {g : Graph} {s d : Int} (hN : NonnegW g) (hT : SmallW g)
    (hR : RefInt g) (hs : Registered g s) (hd : Registered g d) :
    bellman_ford g s d = kkomatsu_dijkstra g s d := by
  by_cases hD : kkomatsu_dijkstra g s d = intMax
  · rw [hD]
    apply bellman_ford_no_path
    intro p hp
    exact (kk_le_path hN hT hs hd (isPathW_false_of_true hp)).2 hD
  · obtain ⟨p, hp, hw, hnd⟩ := kk_finite_path hN hT hD
    have hvnd : (verts s p).Nodup := hnd
    obtain ⟨hle1, hBF⟩ :=
      bellman_ford_le_path hN hT (path_true_of_false hR hp) hvnd
    rw [hw] at hle1
    obtain ⟨q, hq, hqw⟩ := bellman_ford_finite_path hBF
    have hle2 := (kk_le_path hN hT hs hd (isPathW_false_of_true hq)).1
    rw [hqw] at hle2
    omega

theorem kk_symm_le {g : Graph} (hN : NonnegW g) (hT : SmallW g) (hS : SymmAdj g)
    (s d : Int) : kkomatsu_dijkstra g d s ≤ kkomatsu_dijkstra g s d := by
  by_cases hD : kkomatsu_dijkstra g s d = intMax
  · rw [hD]
    exact kk_le_intMax hN hT d s
  · obtain ⟨p, hp, hw, _⟩ := kk_finite_path hN hT hD
    obtain ⟨hs, hd⟩ := kk_lt_registered (lt_of_le_of_ne (kk_le_intMax hN hT s d) hD)
    obtain ⟨q, hq, hqw, _⟩ := path_reverse hS hp
    have := (kk_le_path hN hT hd hs hq).1
    rw [hqw, hw] at this
    exact this

theorem kk_symm {g : Graph} (hN : NonnegW g) (hT : SmallW g) (hS : SymmAdj g)
    (s d : Int) : kkomatsu_dijkstra g s d = kkomatsu_dijkstra g d s :=
  le_antisymm (kk_symm_le hN hT hS d s) (kk_symm_le hN hT hS s d)

theorem bf_unreg_dir {g : Graph} {s d : Int} (hR : RefInt g) (hsd : s ≠ d)
    (h : ¬ Registered g s ∨ ¬ Registered g d) : bellman_ford g s d = intMax := by
  apply bellman_ford_no_path
  intro p hp
  cases hpe : p with
  | nil =>
    subst hpe
    rw [isPathW_nil] at hp
    exact hsd hp.symm
  | cons e q =>
    subst hpe
    rcases h with hns | hnd
    · exact hns (hp.1 rfl)
    · exact hnd (path_endpoint_registered hR hp (by simp))

theorem bf_symm {g : Graph} (hN : NonnegW g) (hT : SmallW g) (hR : RefInt g)
    (hS : SymmAdj g) (s d : Int) : bellman_ford g s d = bellman_ford g d s := by
  by_cases hsd : s = d
  · subst hsd
    rfl
  · by_cases hs : Registered g s
    · by_cases hd : Registered g d
      · rw [bf_eq_kk_reg hN hT hR hs hd, bf_eq_kk_reg hN hT hR hd hs]
        exact kk_symm hN hT hS s d
      · rw [bf_unreg_dir hR hsd (Or.inr hd),
          bf_unreg_dir hR (fun h => hsd h.symm) (Or.inl hd)]
    · rw [bf_unreg_dir hR hsd (Or.inl hs),
        bf_unreg_dir hR (fun h => hsd h.symm) (Or.inr hs)]

end EqualityLemmas

section ClaimGraphs

/-- A single registered point `1` with no connections (test scenario A). -/
def wGraph1 : Graph := add_node Graph.new ⟨1, 0, 0⟩

/-- Registered points `1, 2` and one connection of weight `10` (test scenario B). -/
def wGraphB : Graph := add_edge (add_node (add_node Graph.new ⟨1, 0, 0⟩) ⟨2, 1, 1⟩) ⟨1, 2, 10⟩

/-- Registered points `1, 3` joined directly with weight `10` and through the
unregistered identifier `2` with weight `1 + 1`. -/
def cexGraphC1 : Graph :=
  add_edge (add_edge (add_edge (add_node (add_node Graph.new ⟨1, 0, 0⟩) ⟨3, 0, 0⟩)
    ⟨1, 2, 1⟩) ⟨2, 3, 1⟩) ⟨1, 3, 10⟩

/-- A graph built only through the public operations, carrying one negative
connection: points `1, 2, 3`, connections `(1, 2, -5)` and `(2, 3, 0)`. -/
def cexGraphC2 : Graph := buildGraph
  [Op.addNode ⟨1, 0, 0⟩, Op.addNode ⟨2, 0, 0⟩, Op.addNode ⟨3, 0, 0⟩,
   Op.addEdge ⟨1, 2, -5⟩, Op.addEdge ⟨2, 3, 0⟩]

/-- Registered points `1, 2` with one negative connection, which the
bidirectional storage turns into a negative cycle. -/
def cexGraphC7 : Graph :=
  add_edge (add_node (add_node Graph.new ⟨1, 0, 0⟩) ⟨2, 0, 0⟩) ⟨1, 2, -5⟩

/-- Registered points `1, 3` connected only through the unregistered
identifier `2`. -/
def cexGraphC10 : Graph :=
  add_edge (add_edge (add_node (add_node Graph.new ⟨1, 0, 0⟩) ⟨3, 0, 0⟩) ⟨1, 2, 1⟩) ⟨2, 3, 1⟩

end ClaimGraphs

section Claims

/-- Claim C1, counterexample to the claim as stated: on `cexGraphC1` all edge
weights are nonnegative and both algorithms return finite distances for the
pair `(1, 3)`, yet the values differ (`bellman_ford` relaxes only adjacency
lists keyed by registered nodes and answers `10`, while `kkomatsu_dijkstra`
expands through the unregistered identifier `2` and answers `2`). -/
theorem bf_dijkstra_finite_disagreement_cex :
    NonnegW cexGraphC1 ∧ bellman_ford cexGraphC1 1 3 < intMax ∧
    kkomatsu_dijkstra cexGraphC1 1 3 < intMax ∧
    ¬ (bellman_ford cexGraphC1 1 3 = kkomatsu_dijkstra cexGraphC1 1 3) := by decide

set_option maxRecDepth 400000 in
/-- Claim C1 (amended): for every graph with nonnegative weights in which
every adjacency key and every edge target is a registered point and the total
stored weight is too small to overflow, if `bellman_ford` and
`kkomatsu_dijkstra` both return a finite distance (strictly below the
`i32::MAX` sentinel), the two returned values are equal. -/
theorem bf_dijkstra_agree_on_finite (g : Graph) (s d : Int) (hR : RefInt g)
    (hN : NonnegW g) (hT : SmallW g) (h1 : bellman_ford g s d < intMax)
    (h2 : kkomatsu_dijkstra g s d < intMax) :
    bellman_ford g s d = kkomatsu_dijkstra g s d := by
  obtain ⟨hs, hd⟩ := kk_lt_registered h2
  exact bf_eq_kk_reg hN hT hR hs hd

/-- Claim C1, witness: the amended theorem applied to test scenario B. -/
theorem bf_dijkstra_agree_on_finite_witness :
    bellman_ford wGraphB 1 2 = kkomatsu_dijkstra wGraphB 1 2 :=
  bf_dijkstra_agree_on_finite wGraphB 1 2 (by decide) (by decide) (by decide)
    (by decide) (by decide)

set_option maxRecDepth 400000 in
/-- Claim C2, counterexample to the claim as stated: `cexGraphC2` is built
only through `add_node` and `add_edge`, yet `bellman_ford` is not symmetric on
it — the negative connection forms a negative cycle and the fixed `N`-round
relaxation leaves direction-dependent values (`-25` versus `-15`). -/
theorem distance_symmetry_cex :
    ¬ (bellman_ford cexGraphC2 1 3 = bellman_ford cexGraphC2 3 1 ∧
       kkomatsu_dijkstra cexGraphC2 1 3 = kkomatsu_dijkstra cexGraphC2 3 1) :=
  fun h => absurd h.1 (by decide)

set_option maxRecDepth 400000 in
/-- Claim C2 (amended): on every graph with the symmetric adjacency structure
produced by `add_edge`, registered endpoints, nonnegative weights and
overflow-free totals, both algorithms are symmetric in source and
destination. -/
theorem distance_symmetry_of_nonneg (g : Graph) (s d : Int) (hS : SymmAdj g)
    (hR : RefInt g) (hN : NonnegW g) (hT : SmallW g) :
    bellman_ford g s d = bellman_ford g d s ∧
    kkomatsu_dijkstra g s d = kkomatsu_dijkstra g d s :=
  ⟨bf_symm hN hT hR hS s d, kk_symm hN hT hS s d⟩

/-- Claim C2, witness: symmetry on test scenario B. -/
theorem distance_symmetry_of_nonneg_witness :
    bellman_ford wGraphB 1 2 = bellman_ford wGraphB 2 1 ∧
    kkomatsu_dijkstra wGraphB 1 2 = kkomatsu_dijkstra wGraphB 2 1 :=
  distance_symmetry_of_nonneg wGraphB 1 2 (by decide) (by decide) (by decide) (by decide)

set_option maxRecDepth 400000 in
/-- Claim C3: the Dijkstra `while` loop empties its priority queue after
finitely many iterations for every input graph: the fuel `dijkstraFuel g s`
supplied by `kkomatsu_dijkstra` always suffices for the loop to return a final
distance map rather than running out.  (`bellman_ford` is a nest of
structurally bounded folds — `nodes.len()` rounds over fixed key and edge
lists — so its termination is definitional in the embedding.) -/
theorem dijkstra_loop_empties_heap (g : Graph) (s : Int) :
    ∃ final, dLoop g (dijkstraFuel g s) [⟨0, s⟩] [(s, 0)] = some final := by
  have h := dFinalMap_isSome g s
  unfold dFinalMap at h
  exact Option.isSome_iff_exists.mp h

/-- Claim C4: the Bellman-Ford candidate is computed with checked addition —
whenever `distance[u] + w` leaves the `i32` range the candidate is the
`i32::MAX` sentinel instead of a wrapped value, otherwise it is the exact
mathematical sum; consequently every distance the relaxation ever records is
the exact (never wrapped) integer weight of a chain from the source. -/
theorem bf_checked_add_guard :
    (∀ du w : Int, ¬ (-2147483648 ≤ du + w ∧ du + w < 2147483648) →
      bfCandidate (some du) w = intMax) ∧
    (∀ du w : Int, bfCandidate (some du) w ≠ intMax → bfCandidate (some du) w = du + w) ∧
    (∀ (g : Graph) (s v c : Int),
      alookup (bfIter g g.nodes.length [(s, 0)]) v = some c →
      ∃ p, IsPathW g true s p v ∧ pathWeight p = c) := by
  refine ⟨?_, ?_, ?_⟩
  · intro du w h
    unfold bfCandidate checked_add
    simp only [Option.some_bind]
    rw [if_neg h]
    rfl
  · intro du w h
    have hle := bfCandidate_le_intMax (some du) w
    have hlt := lt_of_le_of_ne hle h
    obtain ⟨du', hdu', hc, _, _⟩ := bfCandidate_of_lt_intMax hlt
    simp only [Option.some.injEq] at hdu'
    rw [hc, hdu']
  · intro g s v c h
    obtain ⟨_, p, hp, hw⟩ := bfInv_final g s v c h
    exact ⟨p, hp, hw⟩

/-- Claim C4, witness: adding `1` to a recorded distance of `i32::MAX`
would overflow, and the candidate is the sentinel. -/
theorem bf_checked_add_guard_witness : bfCandidate (some intMax) 1 = intMax :=
  bf_checked_add_guard.1 intMax 1 (by decide)

/-- Claim C5: `kkomatsu_dijkstra` returns the `i32::MAX` sentinel immediately
whenever the source or the destination has no entry in the node map —
including a self-query on an unregistered identifier — whereas `bellman_ford`
performs no such check: the same unregistered self-query answers `0`. -/
theorem dijkstra_unregistered_sentinel :
    (∀ (g : Graph) (s d : Int), alookup g.nodes s = none ∨ alookup g.nodes d = none →
      kkomatsu_dijkstra g s d = intMax) ∧
    (alookup wGraph1.nodes 5 = none ∧ bellman_ford wGraph1 5 5 = 0) := by
  constructor
  · intro g s d h
    apply kk_unregistered
    rcases h with h | h
    · left
      unfold Registered
      rw [h]
      simp
    · right
      unfold Registered
      rw [h]
      simp
  · exact ⟨by decide, by decide⟩

/-- Claim C5, witness: the unregistered self-query `(5, 5)` on a graph whose
only point is `1`. -/
theorem dijkstra_unregistered_sentinel_witness :
    kkomatsu_dijkstra wGraph1 5 5 = intMax :=
  dijkstra_unregistered_sentinel.1 wGraph1 5 5 (Or.inl (by decide))

/-- Claim C6: for every graph and every point identifier `s` that has no Node
entry in the node map, `bellman_ford g s s = 0` — distance `0` is recorded for
the source key without validating point existence, and no relaxation can ever
replace it because no registered key holds a recorded distance. -/
theorem bf_unregistered_self_distance (g : Graph) (s : Int)
    (hs : alookup g.nodes s = none) : bellman_ford g s s = 0 :=
  bellman_ford_unreg_self hs

/-- Claim C6, witness: the unregistered identifier `5`. -/
theorem bf_unregistered_self_distance_witness : bellman_ford wGraph1 5 5 = 0 :=
  bf_unregistered_self_distance wGraph1 5 (by decide)

/-- Claim C7, counterexample to the claim as stated: point `1` is registered
in `cexGraphC7`, but the negative connection (stored bidirectionally, hence a
negative cycle) drives `bellman_ford cexGraphC7 1 1` to `-20`, not `0`. -/
theorem self_distance_zero_cex :
    (alookup cexGraphC7.nodes 1).isSome ∧
    ¬ (bellman_ford cexGraphC7 1 1 = 0 ∧ kkomatsu_dijkstra cexGraphC7 1 1 = 0) :=
  ⟨by decide, fun h => absurd h.1 (by decide)⟩

set_option maxRecDepth 400000 in
/-- Claim C7 (amended): for every graph with nonnegative weights and
overflow-free totals and every registered point identifier `s`, both
algorithms give distance `0` from `s` to itself. -/
theorem self_distance_zero_of_nonneg (g : Graph) (s : Int) (hN : NonnegW g)
    (hT : SmallW g) (hs : Registered g s) :
    bellman_ford g s s = 0 ∧ kkomatsu_dijkstra g s s = 0 :=
  ⟨bellman_ford_self_zero hN s, kk_self_zero hN hT hs⟩

/-- Claim C7, witness: the registered point `1` of test scenario B. -/
theorem self_distance_zero_of_nonneg_witness :
    bellman_ford wGraphB 1 1 = 0 ∧ kkomatsu_dijkstra wGraphB 1 1 = 0 :=
  self_distance_zero_of_nonneg wGraphB 1 (by decide) (by decide) (by decide)

set_option maxRecDepth 400000 in
/-- Claim C8: for every graph (arbitrary weights) and every pair of distinct
point identifiers without a chain of stored edges from `s` to `d`, both
algorithms return the `i32::MAX` sentinel. -/
theorem unreachable_sentinel (g : Graph) (s d : Int) (hsd : s ≠ d)
    (h : ∀ p, ¬ IsPathW g false s p d) :
    bellman_ford g s d = intMax ∧ kkomatsu_dijkstra g s d = intMax :=
  ⟨bellman_ford_no_path (fun p hp => h p (isPathW_false_of_true hp)), kk_no_path h⟩

/-- Claim C8, witness: the isolated pair `(1, 2)` on the single-point graph. -/
theorem unreachable_sentinel_witness :
    bellman_ford wGraph1 1 2 = intMax ∧ kkomatsu_dijkstra wGraph1 1 2 = intMax := by
  apply unreachable_sentinel wGraph1 1 2 (by decide)
  intro p hp
  cases p with
  | nil =>
    rw [isPathW_nil] at hp
    exact absurd hp (by decide)
  | cons e q =>
    have he := hp.2.1
    have hadj : adj wGraph1 1 = [] := by decide
    rw [hadj] at he
    simp at he

set_option maxRecDepth 400000 in
/-- Claim C9: the adjacency structure of every graph built from the empty
graph through `add_node` / `add_edge` is symmetric — every stored entry
`(a → b, w)` keyed by `a` has the matching entry `(b → a, w)` keyed by `b` —
and the invariant is preserved by every further `add_node` and `add_edge`. -/
theorem adjacency_symmetry_invariant :
    (∀ ops : List Op, SymmAdj (buildGraph ops)) ∧
    (∀ (g : Graph) (n : Node), SymmAdj g → SymmAdj (add_node g n)) ∧
    (∀ (g : Graph) (e : Edge), SymmAdj g → SymmAdj (add_edge g e)) :=
  ⟨symmAdj_buildGraph, fun _ n hS => symmAdj_add_node hS n,
    fun _ e hS => symmAdj_add_edge hS e⟩

/-- Claim C9, witness: preservation step applied to the empty graph. -/
theorem adjacency_symmetry_invariant_witness :
    SymmAdj (add_edge Graph.new ⟨1, 2, 5⟩) :=
  adjacency_symmetry_invariant.2.2 Graph.new ⟨1, 2, 5⟩ (by decide)

/-- Claim C10: `bellman_ford` relaxes only adjacency lists keyed by registered
identifiers — if every chain of stored edges from `s` to `d` (with `s ≠ d`)
passes through an unregistered step key, it answers the `i32::MAX` sentinel —
whereas `kkomatsu_dijkstra` does expand edges keyed by unregistered
identifiers reached through the heap: on `cexGraphC10`, whose only route from
`1` to `3` passes the unregistered identifier `2`, it answers the finite
distance `2` while `bellman_ford` answers the sentinel. -/
theorem bf_relaxes_registered_keys_only :
    (∀ (g : Graph) (s d : Int), s ≠ d → (∀ p, ¬ IsPathW g true s p d) →
      bellman_ford g s d = intMax) ∧
    (kkomatsu_dijkstra cexGraphC10 1 3 = 2 ∧ alookup cexGraphC10.nodes 2 = none ∧
      bellman_ford cexGraphC10 1 3 = intMax) := by
  constructor
  · intro g s d _ h
    exact bellman_ford_no_path h
  · exact ⟨by decide, by decide, by decide⟩

/-- Claim C10, witness: the isolated pair `(1, 3)` on the single-point graph. -/
theorem bf_relaxes_registered_keys_only_witness : bellman_ford wGraph1 1 3 = intMax := by
  apply bf_relaxes_registered_keys_only.1 wGraph1 1 3 (by decide)
  intro p hp
  cases p with
  | nil =>
    rw [isPathW_nil] at hp
    exact absurd hp (by decide)
  | cons e q =>
    have he := hp.2.1
    have hadj : adj wGraph1 1 = [] := by decide
    rw [hadj] at he
    simp at he

end Claims

end PathFind
